import Mathlib

/-!
# iobify: alignment of raw and tokenized text, and projection of IOB labels

A shallow embedding of `iobify.go` (functions `tagTokenizedText`, `align`,
`iobify`, the `levOptions` configuration) together with the properties of the
alignment-and-projection core.

Conventions of the embedding:

* a Go `rune` (an `int32`) is an `Int`; a `[]rune` is a `List Rune`;
* a Go `int` holding an index or the sentinel `-1` is an `Int`;
* `characterTag` is a Go `int` with the four constants `tagO .. tagS`;
* a Go slice access that is out of range makes the embedded function return
  `none` (the run-time panic), so `some` means the call returned normally.
-/

namespace Iobify

/-! ## Data model -/

/-- A Go rune. -/
abbrev Rune := Int

/-- The Go type characterTag, an int. -/
abbrev characterTag := Int

/-- Outside any token. -/
def tagO : characterTag := 0
/-- Inside a token. -/
def tagI : characterTag := 1
/-- Start of a non-initial token. -/
def tagT : characterTag := 2
/-- Start of a sentence. -/
def tagS : characterTag := 3

/-- Code points of a string literal, as a rune slice. -/
def runes (s : String) : List Rune := s.toList.map (fun c => (c.toNat : Int))

/-- Modelled from the spec: the standard-library predicate unicode.IsSpace
(not under src/), "any whitespace character": the Unicode White_Space
code points, which in Latin-1 are tab, newline, vertical tab, form feed,
carriage return, space, U+0085 and U+00A0. -/
def isSpace (r : Rune) : Bool :=
  (0x09 ≤ r && r ≤ 0x0D) || r == 0x20 || r == 0x85 || r == 0xA0 || r == 0x1680 ||
  (0x2000 ≤ r && r ≤ 0x200A) || r == 0x2028 || r == 0x2029 || r == 0x202F ||
  r == 0x205F || r == 0x3000

/-! ## The edit-script routine used by `align` -/

/-- The edit operations of the levenshtein package, as `align` tests them. -/
inductive EditOperation where
  | Ins
  | Del
  | Sub
  | Match
  deriving DecidableEq, Repr

/-- Modelled from the spec: the option record of the third-party levenshtein
package (not under src/): three costs and a match predicate. -/
structure Options where
  InsCost : Nat
  DelCost : Nat
  SubCost : Nat
  Matches : Rune → Rune → Bool

/-- The match predicate of levOptions: source is the tokenized-side rune,
target the raw-side rune. -/
def levMatches (source target : Rune) : Bool :=
  if (source == 32 || source == 10) && isSpace target then true
  else source == target

/-- The configuration levOptions. -/
def levOptions : Options :=
  { InsCost := 1, DelCost := 1, SubCost := 2, Matches := levMatches }

/-- Modelled from the spec: cells 1.. of one row of the dynamic-programming
table of the edit-distance routine (third-party, not under src/): `prev` is the
row above starting at the column to the left of the first cell produced, `left`
the cell to the left in the row being filled; a cell is the cheapest of
deletion, match or substitution, and insertion. -/
def fillRow (op : Options) (s : Rune) : List Rune → List Nat → Nat → List Nat
  | t :: ts, d :: u :: prev, left =>
    let v := min (u + op.DelCost)
      (min (d + (if op.Matches s t then 0 else op.SubCost)) (left + op.InsCost))
    v :: fillRow op s ts (u :: prev) v
  | _, _, _ => []

/-- Modelled from the spec: row i of the table, from row i - 1 (`prev`) and the
source rune s = source[i-1]; column 0 costs i deletions. -/
def nextRow (op : Options) (target : List Rune) (prev : List Nat) (i : Nat) (s : Rune) :
    List Nat :=
  (i * op.DelCost) :: fillRow op s target prev (i * op.DelCost)

/-- Modelled from the spec: rows i .. of the table, given row i - 1 and the
remaining source runes. -/
def rowsFrom (op : Options) (target : List Rune) : List Rune → List Nat → Nat → List (List Nat)
  | [], _, _ => []
  | s :: ss, prev, i =>
    let row := nextRow op target prev i s
    row :: rowsFrom op target ss row (i + 1)

/-- Modelled from the spec: the table of the "standard dynamic-programming
edit-distance routine parameterized by the three costs and the match
predicate" (levenshtein.MatrixForStrings, third-party, not under src/).
Row i, column j holds the cost of turning source[:i] into target[:j]. -/
def MatrixForStrings (source target : List Rune) (op : Options) : List (List Nat) :=
  let row0 := (List.range (target.length + 1)).map (fun j => j * op.InsCost)
  row0 :: rowsFrom op target source row0 1

/-- Modelled from the spec: the table lookup matrix[i][j] of the routine. -/
def cell (matrix : List (List Nat)) (i j : Nat) : Nat :=
  (matrix.getD i []).getD j 0

/-- Modelled from the spec: traceback from cell (i, j) with a recursion budget;
each step moves to a cell with a smaller i + j, so a budget of i + j is never
exhausted (see backtraceFuel_fuel). The spec leaves ties between minimum-cost
scripts open; the order tried at a cell is deletion, insertion, substitution,
match, and the script ends when no rule applies, which is at the origin. -/
def backtraceFuel (matrix : List (List Nat)) (op : Options) :
    Nat → Nat → Nat → List EditOperation
  | 0, _, _ => []
  | fuel + 1, i, j =>
    if 0 < i ∧ cell matrix (i - 1) j + op.DelCost = cell matrix i j then
      backtraceFuel matrix op fuel (i - 1) j ++ [EditOperation.Del]
    else if 0 < j ∧ cell matrix i (j - 1) + op.InsCost = cell matrix i j then
      backtraceFuel matrix op fuel i (j - 1) ++ [EditOperation.Ins]
    else if 0 < i ∧ 0 < j ∧ cell matrix (i - 1) (j - 1) + op.SubCost = cell matrix i j then
      backtraceFuel matrix op fuel (i - 1) (j - 1) ++ [EditOperation.Sub]
    else if 0 < i ∧ 0 < j ∧ cell matrix (i - 1) (j - 1) = cell matrix i j then
      backtraceFuel matrix op fuel (i - 1) (j - 1) ++ [EditOperation.Match]
    else []

/-- Modelled from the spec: the "full traceback" through the table
(levenshtein.backtrace, third-party, not under src/), trying deletion, then
insertion, then substitution, then match at every cell. -/
def backtrace (i j : Nat) (matrix : List (List Nat)) (op : Options) : List EditOperation :=
  backtraceFuel matrix op (i + j) i j

/-- Modelled from the spec: levenshtein.EditScriptForStrings (third-party, not
under src/), "a minimum-cost edit script transforming" source into target. -/
def EditScriptForStrings (source target : List Rune) (op : Options) : List EditOperation :=
  backtrace source.length target.length (MatrixForStrings source target op) op

/-! ## `tagTokenizedText` -/

/-- The loop of tagTokenizedText over the remaining runes, with the two flags. -/
def tagLoop : List Rune → Bool → Bool → List characterTag
  | [], _, _ => []
  | char :: rest, inSentence, inToken =>
    if char = 32 then tagO :: tagLoop rest inSentence false
    else if char = 10 then tagO :: tagLoop rest false false
    else if inToken then tagI :: tagLoop rest inSentence inToken
    else if inSentence then tagT :: tagLoop rest inSentence true
    else tagS :: tagLoop rest true true

/-- The function tagTokenizedText. -/
def tagTokenizedText (tok : List Rune) : List characterTag :=
  tagLoop tok false false

/-! ## `align` -/

/-- The script-consuming loop of align: `alignment` is the slice built so far,
i the tok offset, j the raw offset. -/
def alignLoop (raw : List Rune) : List EditOperation → List Int → Nat → Nat → Option (List Int)
  | [], alignment, _, _ => some alignment
  | EditOperation.Match :: script, alignment, i, j =>
    alignLoop raw script (alignment ++ [(i : Int)]) (i + 1) (j + 1)
  | EditOperation.Sub :: script, alignment, i, j =>
    alignLoop raw script (alignment ++ [(i : Int)]) (i + 1) (j + 1)
  | EditOperation.Ins :: script, alignment, i, j =>
    match raw[j]? with
    | none => none
    | some c =>
      if !isSpace c && decide (0 < j) then
        match alignment[j - 1]? with
        | none => none
        | some a => alignLoop raw script (alignment ++ [a]) i (j + 1)
      else alignLoop raw script (alignment ++ [-1]) i (j + 1)
  | EditOperation.Del :: script, alignment, i, j =>
    alignLoop raw script alignment (i + 1) j

/-- The repair loop of align: `count` iterations remain, the next one is at
raw offset j = count - 1, the last one at j = 0. -/
def repairLoop (raw : List Rune) : Nat → List Int → Option (List Int)
  | 0, alignment => some alignment
  | j + 1, alignment =>
    match alignment[j]? with
    | none => none
    | some a =>
      if a = -1 then
        match raw[j]? with
        | none => none
        | some c =>
          if !isSpace c then
            match alignment[j + 1]? with
            | none => none
            | some b => repairLoop raw j (alignment.set j b)
          else repairLoop raw j alignment
      else repairLoop raw j alignment

/-- The body of align after the edit script has been computed. -/
def alignScript (raw : List Rune) (script : List EditOperation) : Option (List Int) :=
  match alignLoop raw script [] 0 0 with
  | none => none
  | some alignment => repairLoop raw (raw.length - 1) alignment

/-- The function align. -/
def align (raw tok : List Rune) : Option (List Int) :=
  alignScript raw (EditScriptForStrings tok raw levOptions)

/-! ## `iobify` -/

/-- The loop of iobify over the remaining alignment entries, with the tracker oldI. -/
def iobifyLoop (tokTags : List characterTag) : List Int → Int → Option (List characterTag)
  | [], _ => some []
  | i :: rest, oldI =>
    if i = -1 then (iobifyLoop tokTags rest i).map (fun r => tagO :: r)
    else if oldI = i then (iobifyLoop tokTags rest i).map (fun r => tagI :: r)
    else if i < 0 then none
    else
      match tokTags[i.toNat]? with
      | none => none
      | some tag => (iobifyLoop tokTags rest i).map (fun r => tag :: r)

/-- The body of iobify once the alignment is known. -/
def iobifyAlignment (tok : List Rune) (alignment : List Int) : Option (List characterTag) :=
  iobifyLoop (tagTokenizedText tok) alignment (-1)

/-- The function iobify. -/
def iobify (raw tok : List Rune) : Option (List characterTag) :=
  match align raw tok with
  | none => none
  | some alignment => iobifyAlignment tok alignment

/-- The flags (inSentence, inToken) after one more rune. -/
def tagStep (st : Bool × Bool) (char : Rune) : Bool × Bool :=
  if char = 32 then (st.1, false)
  else if char = 10 then (false, false)
  else if st.2 then st
  else if st.1 then (st.1, true)
  else (true, true)

/-- The tag given to a rune under the flags (inSentence, inToken). -/
def tagOf (st : Bool × Bool) (char : Rune) : characterTag :=
  if char = 32 then tagO
  else if char = 10 then tagO
  else if st.2 then tagI
  else if st.1 then tagT
  else tagS

/-- A delimiter of the tokenized text: the space or the newline. -/
def isDelimiter (c : Rune) : Prop := c = 32 ∨ c = 10

instance (c : Rune) : Decidable (isDelimiter c) := by unfold isDelimiter; infer_instance

/-- Position k is token-initial: it is the first position or follows a delimiter. -/
def tokenInitial (tok : List Rune) (k : Nat) : Prop :=
  k = 0 ∨ ∃ d, tok[k - 1]? = some d ∧ isDelimiter d

/-- Some content rune occurs before k with no newline between it and k. -/
def contentSinceNewline (tok : List Rune) (k : Nat) : Prop :=
  ∃ (p : Nat) (c : Rune), p < k ∧ tok[p]? = some c ∧ ¬ isDelimiter c ∧
    ∀ q : Nat, p < q → q < k → tok[q]? ≠ some 10

/-- Cost of pairing source rune s with target rune t: nothing when they
match, the substitution cost otherwise. -/
def pairCost (op : Options) (s t : Rune) : Nat :=
  if op.Matches s t then 0 else op.SubCost

/-- Number of source runes an edit script consumes (Match, Sub, Del). -/
def consumed : List EditOperation → Nat
  | [] => 0
  | EditOperation.Ins :: script => consumed script
  | _ :: script => consumed script + 1

/-- Number of target runes an edit script produces (Match, Sub, Ins). -/
def produced : List EditOperation → Nat
  | [] => 0
  | EditOperation.Del :: script => produced script
  | _ :: script => produced script + 1

/-- The aligned entries of an alignment are order-preserving and gap-free:
aligned values never decrease from left to right, and two equal aligned values
enclose only that same value. -/
def GapFree (al : List Int) : Prop :=
  ∀ (p q : Nat) (x y : Int), p < q → al[p]? = some x → al[q]? = some y → x ≠ -1 → y ≠ -1 →
    x ≤ y ∧ (x = y → ∀ r : Nat, p ≤ r → r ≤ q → al[r]? = some x)

/-- The identity alignment of length n: position j is aligned to index j. -/
def identityAlignment (n : Nat) : List Int := (List.range' 0 n).map (fun (j : Nat) => (j : Int))

/-- Every tokenized rune is matched by the raw rune at the same position. -/
def MatchesPointwise (tok raw : List Rune) : Prop :=
  tok.length = raw.length ∧ ∀ k : Nat, k < tok.length → levMatches (tok.getD k 0) (raw.getD k 0) = true

/-- The label rule of the projector for one raw position: `prev` is the
alignment value of the previous raw position (none at the first position) and
a the alignment value of the current one. -/
def projectedLabel (tokTags : List characterTag) (prev : Option Int) (a : Int) :
    Option characterTag :=
  if a = -1 then some tagO
  else if prev = some a then some tagI
  else tokTags[a.toNat]?

/-- The variant projector loop that leaves the tracker unchanged at an
unaligned position (and is otherwise the loop of iobify). -/
def iobifyLoopKeep (tokTags : List characterTag) : List Int → Int → Option (List characterTag)
  | [], _ => some []
  | i :: rest, oldI =>
    if i = -1 then (iobifyLoopKeep tokTags rest oldI).map (fun r => tagO :: r)
    else if oldI = i then (iobifyLoopKeep tokTags rest i).map (fun r => tagI :: r)
    else if i < 0 then none
    else
      match tokTags[i.toNat]? with
      | none => none
      | some tag => (iobifyLoopKeep tokTags rest i).map (fun r => tag :: r)

/-- The variant of iobify built on the tracker-keeping loop. -/
def iobifyKeep (raw tok : List Rune) : Option (List characterTag) :=
  match align raw tok with
  | none => none
  | some alignment => iobifyLoopKeep (tagTokenizedText tok) alignment (-1)

/-- The raw rune at offset k exists and is not whitespace. -/
def nonSpaceAt (raw : List Rune) (k : Nat) : Bool :=
  match raw[k]? with
  | some c => !isSpace c
  | none => false

/-- In the slice built so far, an unaligned non-whitespace raw position other
than the first has an unaligned left neighbour. -/
def UnalignedLeft (raw : List Rune) (al : List Int) : Prop :=
  ∀ k : Nat, 0 < k → al[k]? = some (-1) → nonSpaceAt raw k = true → al[k - 1]? = some (-1)

/-- The function tagToString: the switch over the four tags, with the empty
string when no case applies. -/
def tagToString (tag : characterTag) : String :=
  if tag = tagO then "O"
  else if tag = tagI then "I"
  else if tag = tagT then "T"
  else if tag = tagS then "S"
  else ""

/-- One of the four tag constants. -/
def isTag (t : characterTag) : Prop := t = tagO ∨ t = tagI ∨ t = tagT ∨ t = tagS

/-- One iteration of the loop of iobify on the state (result, oldI): the tag
is appended and the tracker is assigned the alignment value i. -/
def iobifyStep (tokTags : List characterTag) (st : List characterTag × Int) (i : Int) :
    Option (List characterTag × Int) :=
  if i = -1 then some (st.1 ++ [tagO], i)
  else if st.2 = i then some (st.1 ++ [tagI], i)
  else if i < 0 then none
  else
    match tokTags[i.toNat]? with
    | none => none
    | some tag => some (st.1 ++ [tag], i)

/-- The loop of iobify as a run of iterations from a state (result, oldI),
returning the final state. -/
def iobifyRun (tokTags : List characterTag) :
    List Int → List characterTag × Int → Option (List characterTag × Int)
  | [], st => some st
  | i :: rest, st =>
    match iobifyStep tokTags st i with
    | none => none
    | some st2 => iobifyRun tokTags rest st2

/-! # Properties -/


theorem tagLoop_length (tok : List Rune) (s t : Bool) : (tagLoop tok s t).length = tok.length := by
  induction tok generalizing s t with
  | nil => simp [tagLoop]
  | cons c rest ih =>
    unfold tagLoop
    split_ifs <;> simp [ih]

theorem tagLoop_cons (c : Rune) (rest : List Rune) (s t : Bool) :
    tagLoop (c :: rest) s t
      = tagOf (s, t) c :: tagLoop rest (tagStep (s, t) c).1 (tagStep (s, t) c).2 := by
  simp only [tagLoop, tagOf, tagStep]
  split_ifs <;> simp_all

theorem tagLoop_getElem? (tok : List Rune) (s t : Bool) (k : Nat) :
    (tagLoop tok s t)[k]?
      = (tok[k]?).map (fun c => tagOf ((tok.take k).foldl tagStep (s, t)) c) := by
  induction tok generalizing s t k with
  | nil => simp [tagLoop]
  | cons c rest ih =>
    rw [tagLoop_cons]
    cases k with
    | zero => simp
    | succ k => simp [ih]

theorem tagStep_inToken (st : Bool × Bool) (c : Rune) :
    (tagStep st c).2 = true ↔ ¬ (c = 32 ∨ c = 10) := by
  unfold tagStep
  split_ifs <;> simp_all

theorem tagStep_inv (st : Bool × Bool) (c : Rune) (h : st.2 = true → st.1 = true) :
    (tagStep st c).2 = true → (tagStep st c).1 = true := by
  unfold tagStep
  split_ifs <;> simp_all

theorem foldl_tagStep_inv (pre : List Rune) (st : Bool × Bool) (h : st.2 = true → st.1 = true) :
    (pre.foldl tagStep st).2 = true → (pre.foldl tagStep st).1 = true := by
  induction pre generalizing st with
  | nil => simpa using h
  | cons c rest ih => simpa using ih _ (tagStep_inv st c h)

theorem foldl_tagStep_inToken (pre : List Rune) :
    (pre.foldl tagStep (false, false)).2 = true
      ↔ ∃ d, pre.getLast? = some d ∧ ¬ isDelimiter d := by
  induction pre using List.reverseRecOn with
  | nil => simp
  | append_singleton l a _ =>
    simp [List.foldl_append, tagStep_inToken, isDelimiter]

theorem foldl_tagStep_inSentence (pre : List Rune) :
    (pre.foldl tagStep (false, false)).1 = true
      ↔ ∃ (p : Nat) (c : Rune), pre[p]? = some c ∧ ¬ isDelimiter c ∧
          ∀ q : Nat, p < q → pre[q]? ≠ some 10 := by
  induction pre using List.reverseRecOn with
  | nil => simp
  | append_singleton l a ih =>
    have hinv := foldl_tagStep_inv l (false, false) (by simp)
    rw [List.foldl_append]
    simp only [List.foldl_cons, List.foldl_nil]
    by_cases h32 : a = 32
    · subst h32
      have : (tagStep (List.foldl tagStep (false, false) l) 32).1
          = (List.foldl tagStep (false, false) l).1 := by simp [tagStep]
      rw [this, ih]
      constructor
      · rintro ⟨p, c, hp, hc, hq⟩
        have hpl : p < l.length := by
          by_contra hcon
          rw [List.getElem?_eq_none (by omega)] at hp
          exact absurd hp (by simp)
        refine ⟨p, c, ?_, hc, ?_⟩
        · rw [List.getElem?_append_left hpl]; exact hp
        · intro q hpq
          by_cases hql : q < l.length
          · rw [List.getElem?_append_left hql]; exact hq q hpq
          · by_cases hqe : q = l.length
            · subst hqe; simp
            · rw [List.getElem?_eq_none (by simp; omega)]; simp
      · rintro ⟨p, c, hp, hc, hq⟩
        have hpl : p < l.length := by
          by_contra hcon
          by_cases hpe : p = l.length
          · subst hpe
            simp at hp
            subst hp
            exact hc (Or.inl rfl)
          · rw [List.getElem?_eq_none (by simp; omega)] at hp
            exact absurd hp (by simp)
        refine ⟨p, c, ?_, hc, ?_⟩
        · rw [List.getElem?_append_left hpl] at hp; exact hp
        · intro q hpq
          by_cases hql : q < l.length
          · have := hq q hpq
            rw [List.getElem?_append_left hql] at this; exact this
          · rw [List.getElem?_eq_none (by omega)]; simp
    · by_cases h10 : a = 10
      · subst h10
        have : (tagStep (List.foldl tagStep (false, false) l) 10).1 = false := by simp [tagStep]
        rw [this]
        simp only [Bool.false_eq_true, false_iff]
        rintro ⟨p, c, hp, hc, hq⟩
        by_cases hpl : p < l.length
        · have := hq l.length hpl
          simp at this
        · by_cases hpe : p = l.length
          · subst hpe
            simp at hp
            subst hp
            exact hc (Or.inr rfl)
          · rw [List.getElem?_eq_none (by simp; omega)] at hp
            exact absurd hp (by simp)
      · have : (tagStep (List.foldl tagStep (false, false) l) a).1 = true := by
          simp only [tagStep, h32, h10, if_false]
          split_ifs with h2 h1
          · exact hinv h2
          · exact h1
          · rfl
        rw [this]
        simp only [true_iff]
        refine ⟨l.length, a, by simp, ?_, ?_⟩
        · rintro (h | h)
          · exact h32 h
          · exact h10 h
        · intro q hq
          rw [List.getElem?_eq_none (by simp; omega)]; simp

theorem take_inToken (tok : List Rune) (k : Nat) (hk : k < tok.length) :
    ((tok.take k).foldl tagStep (false, false)).2 = true
      ↔ 0 < k ∧ ∃ d, tok[k - 1]? = some d ∧ ¬ isDelimiter d := by
  rw [foldl_tagStep_inToken, List.getLast?_eq_getElem?, List.length_take,
    Nat.min_eq_left (Nat.le_of_lt hk), List.getElem?_take]
  by_cases h0 : k = 0
  · subst h0; simp
  · have h1 : k - 1 < k := by omega
    simp [h1, Nat.pos_of_ne_zero h0]

theorem take_notInToken (tok : List Rune) (k : Nat) (hk : k < tok.length) :
    ¬ ((tok.take k).foldl tagStep (false, false)).2 = true ↔ tokenInitial tok k := by
  rw [take_inToken tok k hk]
  unfold tokenInitial
  by_cases h0 : k = 0
  · subst h0; simp
  · have hlt : k - 1 < tok.length := by omega
    have hget : tok[k - 1]? = some tok[k - 1] := List.getElem?_eq_getElem hlt
    simp [hget, h0, Nat.pos_of_ne_zero h0]

theorem take_inSentence (tok : List Rune) (k : Nat) :
    ((tok.take k).foldl tagStep (false, false)).1 = true ↔ contentSinceNewline tok k := by
  rw [foldl_tagStep_inSentence]
  unfold contentSinceNewline
  constructor
  · rintro ⟨p, c, hp, hc, hq⟩
    rw [List.getElem?_take] at hp
    by_cases hpk : p < k
    · rw [if_pos hpk] at hp
      refine ⟨p, c, hpk, hp, hc, ?_⟩
      intro q hpq hqk
      have := hq q hpq
      rw [List.getElem?_take, if_pos hqk] at this
      exact this
    · rw [if_neg hpk] at hp
      exact absurd hp (by simp)
  · rintro ⟨p, c, hpk, hp, hc, hq⟩
    refine ⟨p, c, ?_, hc, ?_⟩
    · rw [List.getElem?_take, if_pos hpk]; exact hp
    · intro q hpq
      rw [List.getElem?_take]
      by_cases hqk : q < k
      · rw [if_pos hqk]; exact hq q hpq hqk
      · rw [if_neg hqk]; simp

theorem tagOf_cases (st : Bool × Bool) (c : Rune) :
    (tagOf st c = tagO ↔ isDelimiter c) ∧
    (tagOf st c = tagI ↔ ¬ isDelimiter c ∧ st.2 = true) ∧
    (tagOf st c = tagS ↔ ¬ isDelimiter c ∧ ¬ st.2 = true ∧ ¬ st.1 = true) ∧
    (tagOf st c = tagT ↔ ¬ isDelimiter c ∧ ¬ st.2 = true ∧ st.1 = true) := by
  unfold tagOf isDelimiter
  split_ifs <;> simp_all [tagO, tagI, tagT, tagS]

/-- C6: tagTokenizedText returns one tag per rune of tok, and at every index k the
tag is O exactly for a delimiter (space or newline), I exactly for a content rune
that follows a content rune, S exactly for a token-initial content rune with no
content rune since the last newline (or the start), and T exactly for a
token-initial content rune with some content rune since the last newline. -/
theorem tagTokenizedText_spec (tok : List Rune) :
    (tagTokenizedText tok).length = tok.length ∧
    ∀ (k : Nat) (c : Rune), tok[k]? = some c →
      ∃ tag, (tagTokenizedText tok)[k]? = some tag ∧
        (tag = tagO ↔ isDelimiter c) ∧
        (tag = tagI ↔ ¬ isDelimiter c ∧ 0 < k ∧ ∃ d, tok[k - 1]? = some d ∧ ¬ isDelimiter d) ∧
        (tag = tagS ↔ ¬ isDelimiter c ∧ tokenInitial tok k ∧ ¬ contentSinceNewline tok k) ∧
        (tag = tagT ↔ ¬ isDelimiter c ∧ tokenInitial tok k ∧ contentSinceNewline tok k) := by
  refine ⟨tagLoop_length tok false false, ?_⟩
  intro k c hkc
  have hk : k < tok.length := (List.getElem?_eq_some.mp hkc).1
  refine ⟨tagOf ((tok.take k).foldl tagStep (false, false)) c, ?_, ?_⟩
  · unfold tagTokenizedText
    rw [tagLoop_getElem?, hkc]
    rfl
  · have h := tagOf_cases ((tok.take k).foldl tagStep (false, false)) c
    rw [take_notInToken tok k hk, take_inToken tok k hk, take_inSentence tok k] at h
    exact h

/-- Witness for C6 at tok = "a b", index 2 (the token-initial rune b). -/
theorem tagTokenizedText_spec_witness :
    ∃ tag, (tagTokenizedText [97, 32, 98])[2]? = some tag ∧
      (tag = tagO ↔ isDelimiter 98) ∧
      (tag = tagI ↔ ¬ isDelimiter 98 ∧ 0 < 2 ∧
        ∃ d, ([97, 32, 98] : List Rune)[2 - 1]? = some d ∧ ¬ isDelimiter d) ∧
      (tag = tagS ↔ ¬ isDelimiter 98 ∧ tokenInitial [97, 32, 98] 2 ∧
        ¬ contentSinceNewline [97, 32, 98] 2) ∧
      (tag = tagT ↔ ¬ isDelimiter 98 ∧ tokenInitial [97, 32, 98] 2 ∧
        contentSinceNewline [97, 32, 98] 2) :=
  (tagTokenizedText_spec [97, 32, 98]).2 2 98 (by rfl)

theorem fillRow_length (op : Options) (s : Rune) (ts : List Rune) (prev : List Nat) (left : Nat)
    (h : prev.length = ts.length + 1) : (fillRow op s ts prev left).length = ts.length := by
  induction ts generalizing prev left with
  | nil => simp [fillRow]
  | cons t ts ih =>
    match prev, h with
    | d :: u :: prev, h =>
      simp only [fillRow, List.length_cons]
      rw [ih]
      simpa using h

theorem fillRow_getD (op : Options) (s : Rune) (ts : List Rune) (prev : List Nat) (left : Nat)
    (h : prev.length = ts.length + 1) (j : Nat) (hj : j < ts.length) :
    (left :: fillRow op s ts prev left).getD (j + 1) 0
      = min (prev.getD (j + 1) 0 + op.DelCost)
          (min (prev.getD j 0 + pairCost op s (ts.getD j 0))
            ((left :: fillRow op s ts prev left).getD j 0 + op.InsCost)) := by
  induction ts generalizing prev left j with
  | nil => simp at hj
  | cons t ts ih =>
    match prev, h with
    | d :: u :: prev, h =>
      cases j with
      | zero => simp [fillRow, pairCost]
      | succ j =>
        have hlen : (u :: prev).length = ts.length + 1 := by simpa using h
        have hj2 : j < ts.length := by simpa using hj
        have := ih (u :: prev)
          (min (u + op.DelCost)
            (min (d + (if op.Matches s t then 0 else op.SubCost)) (left + op.InsCost))) hlen j hj2
        simp only [fillRow, List.getD_cons_succ] at this ⊢
        exact this

theorem nextRow_length (op : Options) (target : List Rune) (prev : List Nat) (i : Nat) (s : Rune)
    (h : prev.length = target.length + 1) :
    (nextRow op target prev i s).length = target.length + 1 := by
  simp [nextRow, fillRow_length op s target prev _ h]

theorem rowsFrom_row_length (op : Options) (target ss : List Rune) (prev : List Nat) (i0 : Nat)
    (h : prev.length = target.length + 1) (k : Nat) (hk : k ≤ ss.length) :
    ((prev :: rowsFrom op target ss prev i0).getD k []).length = target.length + 1 := by
  induction ss generalizing prev i0 k with
  | nil =>
    have : k = 0 := by simpa using hk
    subst this
    simpa using h
  | cons s ss ih =>
    cases k with
    | zero => simpa using h
    | succ k =>
      have hk2 : k ≤ ss.length := by simpa using hk
      have := ih (nextRow op target prev i0 s) (i0 + 1) (nextRow_length op target prev i0 s h) k hk2
      simpa [rowsFrom] using this

theorem rowsFrom_getD_succ (op : Options) (target ss : List Rune) (prev : List Nat) (i0 : Nat)
    (k : Nat) (hk : k < ss.length) :
    (prev :: rowsFrom op target ss prev i0).getD (k + 1) []
      = nextRow op target ((prev :: rowsFrom op target ss prev i0).getD k []) (i0 + k)
          (ss.getD k 0) := by
  induction ss generalizing prev i0 k with
  | nil => simp at hk
  | cons s ss ih =>
    cases k with
    | zero => simp [rowsFrom]
    | succ k =>
      have hk2 : k < ss.length := by simpa using hk
      have := ih (nextRow op target prev i0 s) (i0 + 1) k hk2
      simp only [rowsFrom, List.getD_cons_succ] at this ⊢
      rw [this]
      congr 1
      omega

theorem cell_zero_row (source target : List Rune) (op : Options) (j : Nat)
    (hj : j ≤ target.length) :
    cell (MatrixForStrings source target op) 0 j = j * op.InsCost := by
  have hj2 : j < target.length + 1 := by omega
  simp [cell, MatrixForStrings, List.getD_eq_getElem?_getD, List.getElem?_map,
    List.getElem?_range hj2]

theorem matrix_row_length (source target : List Rune) (op : Options) (i : Nat)
    (hi : i ≤ source.length) :
    ((MatrixForStrings source target op).getD i []).length = target.length + 1 := by
  unfold MatrixForStrings
  exact rowsFrom_row_length op target source _ 1 (by simp) i hi

theorem matrix_row_succ (source target : List Rune) (op : Options) (i : Nat)
    (hi : i < source.length) :
    (MatrixForStrings source target op).getD (i + 1) []
      = nextRow op target ((MatrixForStrings source target op).getD i []) (i + 1)
          (source.getD i 0) := by
  unfold MatrixForStrings
  have := rowsFrom_getD_succ op target source
    ((List.range (target.length + 1)).map (fun j => j * op.InsCost)) 1 i hi
  rw [Nat.add_comm 1 i] at this
  exact this

theorem cell_zero_col (source target : List Rune) (op : Options) (i : Nat)
    (hi : i ≤ source.length) :
    cell (MatrixForStrings source target op) i 0 = i * op.DelCost := by
  cases i with
  | zero => simpa using cell_zero_row source target op 0 (Nat.zero_le _)
  | succ i =>
    unfold cell
    rw [matrix_row_succ source target op i (by omega)]
    simp [nextRow]

theorem cell_succ_succ (source target : List Rune) (op : Options) (i j : Nat)
    (hi : i < source.length) (hj : j < target.length) :
    cell (MatrixForStrings source target op) (i + 1) (j + 1)
      = min (cell (MatrixForStrings source target op) i (j + 1) + op.DelCost)
          (min (cell (MatrixForStrings source target op) i j
                + pairCost op (source.getD i 0) (target.getD j 0))
            (cell (MatrixForStrings source target op) (i + 1) j + op.InsCost)) := by
  unfold cell
  rw [matrix_row_succ source target op i hi]
  unfold nextRow
  exact fillRow_getD op _ target _ _ (matrix_row_length source target op i (by omega)) j hj

theorem consumed_append (s t : List EditOperation) :
    consumed (s ++ t) = consumed s + consumed t := by
  induction s with
  | nil => simp [consumed]
  | cons o s ih => cases o <;> simp [consumed, ih] <;> omega

theorem produced_append (s t : List EditOperation) :
    produced (s ++ t) = produced s + produced t := by
  induction s with
  | nil => simp [produced]
  | cons o s ih => cases o <;> simp [produced, ih] <;> omega

theorem backtraceFuel_fuel (matrix : List (List Nat)) (op : Options) (f1 f2 i j : Nat)
    (h1 : i + j ≤ f1) (h2 : i + j ≤ f2) :
    backtraceFuel matrix op f1 i j = backtraceFuel matrix op f2 i j := by
  induction f1 generalizing f2 i j with
  | zero =>
    have hi : i = 0 := by omega
    have hj : j = 0 := by omega
    subst hi; subst hj
    cases f2 <;> simp [backtraceFuel]
  | succ f1 ih =>
    cases f2 with
    | zero =>
      have hi : i = 0 := by omega
      have hj : j = 0 := by omega
      subst hi; subst hj
      simp [backtraceFuel]
    | succ f2 =>
      simp only [backtraceFuel]
      split_ifs with c1 c2 c3 c4
      · rw [ih f2 (i - 1) j (by omega) (by omega)]
      · rw [ih f2 i (j - 1) (by omega) (by omega)]
      · rw [ih f2 (i - 1) (j - 1) (by omega) (by omega)]
      · rw [ih f2 (i - 1) (j - 1) (by omega) (by omega)]
      · rfl

theorem backtraceFuel_counts (source target : List Rune) (op : Options) (fuel i j : Nat)
    (hi : i ≤ source.length) (hj : j ≤ target.length) (hf : i + j ≤ fuel) :
    consumed (backtraceFuel (MatrixForStrings source target op) op fuel i j) = i ∧
    produced (backtraceFuel (MatrixForStrings source target op) op fuel i j) = j := by
  induction fuel generalizing i j with
  | zero =>
    have hi0 : i = 0 := by omega
    have hj0 : j = 0 := by omega
    subst hi0; subst hj0
    simp [backtraceFuel, consumed, produced]
  | succ fuel ih =>
    simp only [backtraceFuel]
    split_ifs with c1 c2 c3 c4
    · have := ih (i - 1) j (by omega) hj (by omega)
      rw [consumed_append, produced_append, this.1, this.2]
      simp [consumed, produced]; omega
    · have := ih i (j - 1) hi (by omega) (by omega)
      rw [consumed_append, produced_append, this.1, this.2]
      simp [consumed, produced]; omega
    · have := ih (i - 1) (j - 1) (by omega) (by omega) (by omega)
      rw [consumed_append, produced_append, this.1, this.2]
      simp [consumed, produced]; omega
    · have := ih (i - 1) (j - 1) (by omega) (by omega) (by omega)
      rw [consumed_append, produced_append, this.1, this.2]
      simp [consumed, produced]; omega
    · -- no rule applies: only possible at the origin
      simp only [consumed, produced]
      cases i with
      | zero =>
        cases j with
        | zero => exact ⟨rfl, rfl⟩
        | succ j =>
          exfalso
          apply c2
          refine ⟨Nat.succ_pos _, ?_⟩
          rw [cell_zero_row source target op (j + 1) hj, Nat.add_sub_cancel,
            cell_zero_row source target op j (by omega)]
          ring
      | succ i =>
        exfalso
        cases j with
        | zero =>
          apply c1
          refine ⟨Nat.succ_pos _, ?_⟩
          rw [cell_zero_col source target op (i + 1) hi, Nat.add_sub_cancel,
            cell_zero_col source target op i (by omega)]
          ring
        | succ j =>
          have hrec := cell_succ_succ source target op i j (by omega) (by omega)
          simp only [Nat.add_sub_cancel, Nat.succ_pos, true_and] at c1 c2 c3 c4
          unfold pairCost at hrec
          split_ifs at hrec <;> omega

theorem EditScriptForStrings_counts (source target : List Rune) (op : Options) :
    consumed (EditScriptForStrings source target op) = source.length ∧
    produced (EditScriptForStrings source target op) = target.length :=
  backtraceFuel_counts source target op _ _ _ (Nat.le_refl _) (Nat.le_refl _) (Nat.le_refl _)

theorem getElem?_snoc (al : List Int) (v : Int) (p : Nat) (x : Int) :
    (al ++ [v])[p]? = some x ↔ (p < al.length ∧ al[p]? = some x) ∨ (p = al.length ∧ x = v) := by
  by_cases h : p < al.length
  · rw [List.getElem?_append_left h]
    constructor
    · intro hx; exact Or.inl ⟨h, hx⟩
    · rintro (⟨_, hx⟩ | ⟨he, _⟩)
      · exact hx
      · omega
  · by_cases he : p = al.length
    · subst he
      simp [eq_comm]
    · rw [List.getElem?_eq_none (by simp; omega)]
      constructor
      · intro hx; exact absurd hx (by simp)
      · rintro (⟨hlt, _⟩ | ⟨he2, _⟩)
        · exact absurd hlt h
        · exact absurd he2 he

theorem GapFree_nil : GapFree [] := by
  intro p q x y _ hp
  simp at hp

theorem GapFree_snoc_fresh (al : List Int) (v : Int) (h : GapFree al)
    (hv : ∀ x ∈ al, x = -1 ∨ x < v) : GapFree (al ++ [v]) := by
  intro p q x y hpq hp hq hx hy
  rw [getElem?_snoc] at hp hq
  rcases hq with ⟨hql, hq⟩ | ⟨hqe, hyv⟩
  · rcases hp with ⟨_, hp⟩ | ⟨hpe, _⟩
    · obtain ⟨h1, h2⟩ := h p q x y hpq hp hq hx hy
      refine ⟨h1, fun hxy r hpr hrq => ?_⟩
      rw [List.getElem?_append_left (by omega)]
      exact h2 hxy r hpr hrq
    · omega
  · rcases hp with ⟨_, hp⟩ | ⟨hpe, _⟩
    · have hmem : x ∈ al := List.getElem?_mem hp
      rcases hv x hmem with h1 | h1
      · exact absurd h1 hx
      · subst hyv
        exact ⟨by omega, fun hxy => by omega⟩
    · omega

theorem GapFree_snoc_unaligned (al : List Int) (h : GapFree al) : GapFree (al ++ [-1]) := by
  intro p q x y hpq hp hq hx hy
  rw [getElem?_snoc] at hp hq
  rcases hq with ⟨hql, hq⟩ | ⟨hqe, hyv⟩
  · rcases hp with ⟨_, hp⟩ | ⟨hpe, _⟩
    · obtain ⟨h1, h2⟩ := h p q x y hpq hp hq hx hy
      refine ⟨h1, fun hxy r hpr hrq => ?_⟩
      rw [List.getElem?_append_left (by omega)]
      exact h2 hxy r hpr hrq
    · omega
  · exact absurd hyv hy

theorem GapFree_snoc_copy (al : List Int) (a : Int) (h : GapFree al)
    (ha : al[al.length - 1]? = some a) : GapFree (al ++ [a]) := by
  have hlen : 0 < al.length := by
    have := (List.getElem?_eq_some.mp ha).1
    omega
  intro p q x y hpq hp hq hx hy
  rw [getElem?_snoc] at hp hq
  rcases hq with ⟨hql, hq⟩ | ⟨hqe, hyv⟩
  · rcases hp with ⟨_, hp⟩ | ⟨hpe, _⟩
    · obtain ⟨h1, h2⟩ := h p q x y hpq hp hq hx hy
      refine ⟨h1, fun hxy r hpr hrq => ?_⟩
      rw [List.getElem?_append_left (by omega)]
      exact h2 hxy r hpr hrq
    · omega
  · rcases hp with ⟨hpl, hp⟩ | ⟨hpe, _⟩
    · subst hyv
      by_cases hlast : p = al.length - 1
      · subst hlast
        have hxy : x = y := by
          rw [ha] at hp
          exact (Option.some.inj hp).symm
        subst hxy
        refine ⟨le_refl _, fun _ r hpr hrq => ?_⟩
        rw [getElem?_snoc]
        by_cases hr : r = al.length
        · exact Or.inr ⟨hr, rfl⟩
        · have : r = al.length - 1 := by omega
          subst this
          exact Or.inl ⟨by omega, ha⟩
      · obtain ⟨h1, h2⟩ := h p (al.length - 1) x y (by omega) hp ha hx hy
        refine ⟨h1, fun hxy r hpr hrq => ?_⟩
        rw [getElem?_snoc]
        by_cases hr : r = al.length
        · exact Or.inr ⟨hr, hxy⟩
        · exact Or.inl ⟨by omega, h2 hxy r hpr (by omega)⟩
    · omega

theorem getElem?_set_some (al : List Int) (j : Nat) (b : Int) (hj : j < al.length)
    (p : Nat) (x : Int) :
    (al.set j b)[p]? = some x ↔ (p = j ∧ x = b) ∨ (p ≠ j ∧ al[p]? = some x) := by
  rw [List.getElem?_set]
  by_cases h : j = p
  · subst h
    simp [hj, eq_comm]
  · have h2 : p ≠ j := fun e => h e.symm
    simp [h, h2]

theorem GapFree_set (al : List Int) (j : Nat) (b : Int) (h : GapFree al)
    (hj : al[j]? = some (-1)) (hb : al[j + 1]? = some b) : GapFree (al.set j b) := by
  have hjl : j < al.length := (List.getElem?_eq_some.mp hj).1
  intro p q x y hpq hp hq hx hy
  rw [getElem?_set_some al j b hjl] at hp hq
  rcases hp with ⟨hpj, hxb⟩ | ⟨hpj, hp⟩
  · rcases hq with ⟨hqj, _⟩ | ⟨hqj, hq⟩
    · omega
    · subst hpj; subst hxb
      by_cases hq1 : q = p + 1
      · subst hq1
        have hxy : x = y := by
          rw [hb] at hq
          exact Option.some.inj hq
        subst hxy
        refine ⟨le_refl _, fun _ r hpr hrq => ?_⟩
        rw [getElem?_set_some al p x hjl]
        by_cases hr : r = p
        · exact Or.inl ⟨hr, rfl⟩
        · have : r = p + 1 := by omega
          subst this
          exact Or.inr ⟨hr, hb⟩
      · obtain ⟨h1, h2⟩ := h (p + 1) q x y (by omega) hb hq hx hy
        refine ⟨h1, fun hxy r hpr hrq => ?_⟩
        rw [getElem?_set_some al p x hjl]
        by_cases hr : r = p
        · exact Or.inl ⟨hr, rfl⟩
        · exact Or.inr ⟨hr, h2 hxy r (by omega) hrq⟩
  · rcases hq with ⟨hqj, hyb⟩ | ⟨hqj, hq⟩
    · subst hqj; subst hyb
      obtain ⟨h1, h2⟩ := h p (q + 1) x y (by omega) hp hb hx hy
      refine ⟨h1, fun hxy => ?_⟩
      exfalso
      have := h2 hxy q (by omega) (by omega)
      rw [hj] at this
      exact hx (Option.some.inj this).symm
    · obtain ⟨h1, h2⟩ := h p q x y hpq hp hq hx hy
      refine ⟨h1, fun hxy r hpr hrq => ?_⟩
      rw [getElem?_set_some al j b hjl]
      have hr := h2 hxy r hpr hrq
      by_cases hrj : r = j
      · exfalso
        subst hrj
        rw [hj] at hr
        exact hx (Option.some.inj hr).symm
      · exact Or.inr ⟨hrj, hr⟩

theorem GapFree_tail (a : Int) (al : List Int) (h : GapFree (a :: al)) : GapFree al := by
  intro p q x y hpq hp hq hx hy
  obtain ⟨h1, h2⟩ := h (p + 1) (q + 1) x y (by omega) (by simpa using hp) (by simpa using hq) hx hy
  refine ⟨h1, fun hxy r hpr hrq => ?_⟩
  have := h2 hxy (r + 1) (by omega) (by omega)
  simpa using this

theorem GapFree_cons_unaligned (al : List Int) (h : GapFree al) : GapFree (-1 :: al) := by
  intro p q x y hpq hp hq hx hy
  cases p with
  | zero =>
    simp at hp
    exact absurd hp.symm hx
  | succ p =>
    cases q with
    | zero => omega
    | succ q =>
      obtain ⟨h1, h2⟩ := h p q x y (by omega) (by simpa using hp) (by simpa using hq) hx hy
      refine ⟨h1, fun hxy r hpr hrq => ?_⟩
      cases r with
      | zero => omega
      | succ r =>
        have := h2 hxy r (by omega) (by omega)
        simpa using this

theorem GapFree_not_mem_after_gap (a : Int) (al : List Int) (ha : a ≠ -1)
    (h : GapFree (a :: -1 :: al)) : a ∉ al := by
  intro hmem
  obtain ⟨n, hn⟩ := List.mem_iff_getElem?.mp hmem
  obtain ⟨_, h2⟩ := h 0 (n + 2) a a (by omega) (by simp) (by simpa using hn) ha ha
  have := h2 rfl 1 (by omega) (by omega)
  simp at this
  exact ha this.symm

theorem alignLoop_spec (raw : List Rune) (script : List EditOperation) (al : List Int)
    (i j : Nat) (hlen : al.length = j) (hraw : j + produced script ≤ raw.length)
    (hgap : GapFree al) (hval : ∀ x ∈ al, x = -1 ∨ (0 ≤ x ∧ x < (i : Int))) :
    ∃ a, alignLoop raw script al i j = some a ∧ a.length = j + produced script ∧ GapFree a ∧
      ∀ x ∈ a, x = -1 ∨ (0 ≤ x ∧ x < ((i + consumed script : Nat) : Int)) := by
  induction script generalizing al i j with
  | nil =>
    refine ⟨al, rfl, by simpa [produced] using hlen, hgap, ?_⟩
    simpa [consumed] using hval
  | cons o script ih =>
    have hfresh : ∀ x ∈ al ++ [(i : Int)], x = -1 ∨ (0 ≤ x ∧ x < ((i + 1 : Nat) : Int)) := by
      intro x hx
      rcases List.mem_append.mp hx with hx | hx
      · rcases hval x hx with h | ⟨h1, h2⟩
        · exact Or.inl h
        · exact Or.inr ⟨h1, by push_cast; omega⟩
      · have : x = (i : Int) := by simpa using hx
        subst this
        exact Or.inr ⟨by omega, by push_cast; omega⟩
    have hfreshGap : GapFree (al ++ [(i : Int)]) :=
      GapFree_snoc_fresh al i hgap (fun x hx => by
        rcases hval x hx with h | ⟨_, h2⟩
        · exact Or.inl h
        · exact Or.inr h2)
    cases o with
    | Match =>
      simp only [produced, consumed] at hraw ⊢
      obtain ⟨a, h1, h2, h3, h4⟩ := ih (al ++ [(i : Int)]) (i + 1) (j + 1) (by simp [hlen])
        (by omega) hfreshGap hfresh
      refine ⟨a, by simpa [alignLoop] using h1, by omega, h3, fun x hx => ?_⟩
      have := h4 x hx
      rwa [show i + 1 + consumed script = i + (consumed script + 1) by omega] at this
    | Sub =>
      simp only [produced, consumed] at hraw ⊢
      obtain ⟨a, h1, h2, h3, h4⟩ := ih (al ++ [(i : Int)]) (i + 1) (j + 1) (by simp [hlen])
        (by omega) hfreshGap hfresh
      refine ⟨a, by simpa [alignLoop] using h1, by omega, h3, fun x hx => ?_⟩
      have := h4 x hx
      rwa [show i + 1 + consumed script = i + (consumed script + 1) by omega] at this
    | Del =>
      simp only [produced, consumed] at hraw ⊢
      obtain ⟨a, h1, h2, h3, h4⟩ := ih al (i + 1) j hlen hraw hgap (fun x hx => by
        rcases hval x hx with h | ⟨h1, h2⟩
        · exact Or.inl h
        · exact Or.inr ⟨h1, by push_cast; omega⟩)
      refine ⟨a, by simpa [alignLoop] using h1, h2, h3, fun x hx => ?_⟩
      have := h4 x hx
      rwa [show i + 1 + consumed script = i + (consumed script + 1) by omega] at this
    | Ins =>
      simp only [produced, consumed] at hraw ⊢
      have hj : j < raw.length := by omega
      have hrawj : raw[j]? = some raw[j] := List.getElem?_eq_getElem hj
      simp only [alignLoop, hrawj]
      by_cases hc : (!isSpace raw[j] && decide (0 < j)) = true
      · have hj0 : 0 < j := by
          simp only [Bool.and_eq_true, decide_eq_true_eq] at hc
          exact hc.2
        have hprev : j - 1 < al.length := by omega
        have hget : al[j - 1]? = some al[j - 1] := List.getElem?_eq_getElem hprev
        simp only [hc, if_true, hget]
        obtain ⟨a, h1, h2, h3, h4⟩ := ih (al ++ [al[j - 1]]) i (j + 1) (by simp [hlen])
          (by omega) (GapFree_snoc_copy al _ hgap (by rw [hlen]; exact hget))
          (fun x hx => by
            rcases List.mem_append.mp hx with hx | hx
            · exact hval x hx
            · have : x = al[j - 1] := by simpa using hx
              subst this
              exact hval _ (List.getElem_mem _))
        exact ⟨a, h1, by omega, h3, h4⟩
      · simp only [hc, Bool.false_eq_true, if_false]
        obtain ⟨a, h1, h2, h3, h4⟩ := ih (al ++ [-1]) i (j + 1) (by simp [hlen])
          (by omega) (GapFree_snoc_unaligned al hgap)
          (fun x hx => by
            rcases List.mem_append.mp hx with hx | hx
            · exact hval x hx
            · have : x = -1 := by simpa using hx
              exact Or.inl this)
        exact ⟨a, h1, by omega, h3, h4⟩

theorem repairLoop_spec (raw : List Rune) (n : Nat) (al : List Int)
    (h1 : n ≤ al.length - 1) (h2 : n ≤ raw.length) (hgap : GapFree al) :
    ∃ a, repairLoop raw n al = some a ∧ a.length = al.length ∧ GapFree a ∧ ∀ x ∈ a, x ∈ al := by
  induction n generalizing al with
  | zero => exact ⟨al, rfl, rfl, hgap, fun x hx => hx⟩
  | succ j ih =>
    have hj : j < al.length := by omega
    have hj1 : j + 1 < al.length := by omega
    have hjr : j < raw.length := by omega
    have hget : al[j]? = some al[j] := List.getElem?_eq_getElem hj
    have hget1 : al[j + 1]? = some al[j + 1] := List.getElem?_eq_getElem hj1
    have hrawj : raw[j]? = some raw[j] := List.getElem?_eq_getElem hjr
    simp only [repairLoop, hget, hrawj, hget1]
    by_cases ha : al[j] = -1
    · by_cases hc : (!isSpace raw[j]) = true
      · simp only [ha, hc, if_true]
        obtain ⟨a, e1, e2, e3, e4⟩ := ih (al.set j al[j + 1]) (by simp; omega) (by omega)
          (GapFree_set al j _ hgap (by rw [hget, ha]) hget1)
        refine ⟨a, e1, by simpa using e2, e3, fun x hx => ?_⟩
        rcases List.mem_or_eq_of_mem_set (e4 x hx) with h | h
        · exact h
        · rw [h]; exact List.getElem_mem _
      · simp only [ha, hc, if_true, Bool.false_eq_true, if_false]
        exact ih al (by omega) (by omega) hgap
    · simp only [ha, if_false]
      exact ih al (by omega) (by omega) hgap

theorem alignScript_spec (raw : List Rune) (script : List EditOperation)
    (h : produced script = raw.length) :
    ∃ a, alignScript raw script = some a ∧ a.length = raw.length ∧ GapFree a ∧
      ∀ x ∈ a, x = -1 ∨ (0 ≤ x ∧ x < (consumed script : Int)) := by
  obtain ⟨a, h1, h2, h3, h4⟩ := alignLoop_spec raw script [] 0 0 rfl (by omega) GapFree_nil
    (fun x hx => by simp at hx)
  obtain ⟨b, e1, e2, e3, e4⟩ := repairLoop_spec raw (raw.length - 1) a (by omega) (by omega) h3
  refine ⟨b, ?_, by omega, e3, fun x hx => ?_⟩
  · simp only [alignScript, h1]
    exact e1
  · have := h4 x (e4 x hx)
    simpa using this

theorem align_spec (raw tok : List Rune) :
    ∃ a, align raw tok = some a ∧ a.length = raw.length ∧ GapFree a ∧
      ∀ x ∈ a, x = -1 ∨ (0 ≤ x ∧ x < (tok.length : Int)) := by
  have hc := EditScriptForStrings_counts tok raw levOptions
  obtain ⟨a, h1, h2, h3, h4⟩ := alignScript_spec raw _ hc.2
  rw [hc.1] at h4
  exact ⟨a, h1, h2, h3, h4⟩

theorem iobifyLoop_spec (tokTags : List characterTag) (al : List Int) (oldI : Int)
    (hval : ∀ x ∈ al, x = -1 ∨ (0 ≤ x ∧ x < (tokTags.length : Int))) :
    ∃ r, iobifyLoop tokTags al oldI = some r ∧ r.length = al.length := by
  induction al generalizing oldI with
  | nil => exact ⟨[], rfl, rfl⟩
  | cons i rest ih =>
    obtain ⟨r, h1, h2⟩ := ih i (fun x hx => hval x (List.mem_cons_of_mem _ hx))
    simp only [iobifyLoop, h1, Option.map_some']
    by_cases hi : i = -1
    · exact ⟨tagO :: r, by simp [hi], by simp [h2]⟩
    · by_cases ho : oldI = i
      · exact ⟨tagI :: r, by simp [hi, ho], by simp [h2]⟩
      · rcases hval i (List.mem_cons_self _ _) with h | ⟨h0, hlt⟩
        · exact absurd h hi
        · have hidx : i.toNat < tokTags.length := by omega
          have hget : tokTags[i.toNat]? = some tokTags[i.toNat] := List.getElem?_eq_getElem hidx
          refine ⟨tokTags[i.toNat] :: r, ?_, by simp [h2]⟩
          simp [hi, ho, hget, not_lt.mpr h0]

theorem iobify_total (raw tok : List Rune) :
    ∃ a r, align raw tok = some a ∧ iobify raw tok = some r ∧ a.length = raw.length ∧
      r.length = raw.length ∧ GapFree a ∧ ∀ x ∈ a, x = -1 ∨ (0 ≤ x ∧ x < (tok.length : Int)) := by
  obtain ⟨a, h1, h2, h3, h4⟩ := align_spec raw tok
  obtain ⟨r, e1, e2⟩ := iobifyLoop_spec (tagTokenizedText tok) a (-1) (by
    rw [tagTokenizedText, tagLoop_length]; exact h4)
  exact ⟨a, r, h1, by simp [iobify, h1, iobifyAlignment, e1], h2, by omega, h3, h4⟩

theorem cell_diag_zero (tok raw : List Rune) (h : MatchesPointwise tok raw) (k : Nat)
    (hk : k ≤ tok.length) : cell (MatrixForStrings tok raw levOptions) k k = 0 := by
  induction k with
  | zero => simpa using cell_zero_row tok raw levOptions 0 (Nat.zero_le _)
  | succ k ih =>
    have hrec := cell_succ_succ tok raw levOptions k k (by omega) (by have := h.1; omega)
    have hm : pairCost levOptions (tok.getD k 0) (raw.getD k 0) = 0 := by
      have := h.2 k (by omega)
      simp only [pairCost, levOptions, this, if_true]
    rw [ih (by omega), hm] at hrec
    omega

theorem backtraceFuel_diag (tok raw : List Rune) (h : MatchesPointwise tok raw) (k fuel : Nat)
    (hk : k ≤ tok.length) (hf : k + k ≤ fuel) :
    backtraceFuel (MatrixForStrings tok raw levOptions) levOptions fuel k k
      = List.replicate k EditOperation.Match := by
  induction k generalizing fuel with
  | zero => cases fuel <;> simp [backtraceFuel]
  | succ k ih =>
    cases fuel with
    | zero => omega
    | succ fuel =>
      have h0 := cell_diag_zero tok raw h (k + 1) hk
      have h1 := cell_diag_zero tok raw h k (by omega)
      simp only [backtraceFuel, Nat.add_sub_cancel, h0, h1]
      have hI : levOptions.InsCost = 1 := rfl
      have hD : levOptions.DelCost = 1 := rfl
      have hS : levOptions.SubCost = 2 := rfl
      rw [if_neg (by rw [hD]; omega), if_neg (by rw [hI]; omega), if_neg (by rw [hS]; omega),
        if_pos ⟨Nat.succ_pos _, Nat.succ_pos _, trivial⟩, ih fuel (by omega) (by omega)]
      exact (List.replicate_succ' k EditOperation.Match).symm

theorem EditScriptForStrings_diag (tok raw : List Rune) (h : MatchesPointwise tok raw) :
    EditScriptForStrings tok raw levOptions = List.replicate tok.length EditOperation.Match := by
  unfold EditScriptForStrings backtrace
  rw [← h.1]
  exact backtraceFuel_diag tok raw h tok.length _ (Nat.le_refl _) (Nat.le_refl _)

theorem alignLoop_replicate_match (raw : List Rune) (k : Nat) (al : List Int) (i j : Nat) :
    alignLoop raw (List.replicate k EditOperation.Match) al i j
      = some (al ++ (List.range' i k).map (fun (n : Nat) => (n : Int))) := by
  induction k generalizing al i j with
  | zero => simp [alignLoop]
  | succ k ih =>
    simp only [List.replicate_succ, alignLoop, ih, List.range'_succ, List.map_cons]
    simp

theorem repairLoop_aligned (raw : List Rune) (n : Nat) (al : List Int)
    (h : ∀ x ∈ al, x ≠ -1) (hn : n ≤ al.length) : repairLoop raw n al = some al := by
  induction n with
  | zero => rfl
  | succ j ih =>
    have hj : j < al.length := by omega
    have hget : al[j]? = some al[j] := List.getElem?_eq_getElem hj
    simp only [repairLoop, hget, if_neg (h _ (List.getElem_mem _))]
    exact ih (by omega)

theorem alignScript_all_match (raw : List Rune) (k : Nat) (hk : k = raw.length) :
    alignScript raw (List.replicate k EditOperation.Match) = some (identityAlignment k) := by
  simp only [alignScript, alignLoop_replicate_match, List.nil_append]
  apply repairLoop_aligned
  · intro x hx
    simp only [List.mem_map] at hx
    obtain ⟨n, _, rfl⟩ := hx
    omega
  · simp; omega

theorem iobifyLoop_identity (tokTags : List characterTag) (k i : Nat) (oldI : Int)
    (hold : oldI < (i : Int)) (hlen : i + k = tokTags.length) :
    iobifyLoop tokTags ((List.range' i k).map (fun (n : Nat) => (n : Int))) oldI
      = some (tokTags.drop i) := by
  induction k generalizing i oldI with
  | zero =>
    simp only [List.range'_zero, List.map_nil, iobifyLoop]
    rw [List.drop_eq_nil_of_le (by omega)]
  | succ k ih =>
    have hi : i < tokTags.length := by omega
    have hget : tokTags[i]? = some tokTags[i] := List.getElem?_eq_getElem hi
    simp only [List.range'_succ, List.map_cons, iobifyLoop]
    rw [if_neg (by omega), if_neg (by omega), if_neg (by omega), Int.toNat_ofNat, hget,
      ih (i + 1) i (by push_cast; omega) (by omega)]
    simp only [Option.map_some']
    rw [← List.drop_eq_getElem_cons hi]

theorem align_of_matchesPointwise (raw tok : List Rune) (h : MatchesPointwise tok raw) :
    align raw tok = some (identityAlignment raw.length) := by
  unfold align
  rw [EditScriptForStrings_diag tok raw h, h.1]
  exact alignScript_all_match raw raw.length rfl

theorem iobify_of_matchesPointwise (raw tok : List Rune) (h : MatchesPointwise tok raw) :
    iobify raw tok = some (tagTokenizedText tok) := by
  simp only [iobify, align_of_matchesPointwise raw tok h, iobifyAlignment, identityAlignment]
  rw [iobifyLoop_identity (tagTokenizedText tok) raw.length 0 (-1) (by simp)
    (by rw [tagTokenizedText, tagLoop_length]; have := h.1; omega)]
  simp

theorem iobifyLoop_getElem? (tokTags : List characterTag) (al : List Int) (oldI : Int)
    (R : List characterTag) (j : Nat) (a : Int)
    (hR : iobifyLoop tokTags al oldI = some R) (ha : al[j]? = some a) :
    R[j]? = projectedLabel tokTags (if j = 0 then some oldI else al[j - 1]?) a := by
  induction al generalizing oldI R j with
  | nil => simp at ha
  | cons i rest ih =>
    simp only [iobifyLoop] at hR
    cases j with
    | zero =>
      have hia : i = a := by simpa using ha
      subst hia
      simp only [projectedLabel, if_true]
      split_ifs at hR with h1 h2 h3
      · obtain ⟨r, _, hr⟩ := Option.map_eq_some'.mp hR
        subst hr; simp [h1]
      · obtain ⟨r, _, hr⟩ := Option.map_eq_some'.mp hR
        subst hr; simp [h1, h2]
      · cases hget : tokTags[i.toNat]? with
        | none => simp [hget] at hR
        | some tag =>
          simp only [hget] at hR
          obtain ⟨r, _, hr⟩ := Option.map_eq_some'.mp hR
          subst hr; simp [h1, h2]
    | succ j =>
      have ha2 : rest[j]? = some a := by simpa using ha
      have key : ∀ r, iobifyLoop tokTags rest i = some r →
          r[j]? = projectedLabel tokTags (if j + 1 = 0 then some oldI else (i :: rest)[j + 1 - 1]?) a := by
        intro r hr
        rw [ih i r j hr ha2]
        cases j with
        | zero => simp
        | succ j => simp
      split_ifs at hR with h1 h2 h3
      · obtain ⟨r, hr1, hr⟩ := Option.map_eq_some'.mp hR
        subst hr; simpa using key r hr1
      · obtain ⟨r, hr1, hr⟩ := Option.map_eq_some'.mp hR
        subst hr; simpa using key r hr1
      · cases hget : tokTags[i.toNat]? with
        | none => simp [hget] at hR
        | some tag =>
          simp only [hget] at hR
          obtain ⟨r, hr1, hr⟩ := Option.map_eq_some'.mp hR
          subst hr; simpa using key r hr1

theorem iobifyLoop_eq_keep (tokTags : List characterTag) (al : List Int) (oldI oldK : Int)
    (h : (oldI = oldK ∧ GapFree (oldK :: al)) ∨ (oldI = -1 ∧ oldK ∉ al ∧ GapFree al)) :
    iobifyLoop tokTags al oldI = iobifyLoopKeep tokTags al oldK := by
  induction al generalizing oldI oldK with
  | nil => rfl
  | cons i rest ih =>
    simp only [iobifyLoop, iobifyLoopKeep]
    by_cases hi : i = -1
    · subst hi
      simp only [if_true]
      congr 1
      apply ih
      rcases h with ⟨he, hg⟩ | ⟨he, hn, hg⟩
      · by_cases hk : oldK = -1
        · exact Or.inl ⟨hk.symm, hk ▸ (GapFree_tail _ _ hg)⟩
        · exact Or.inr ⟨rfl, GapFree_not_mem_after_gap oldK rest hk hg,
            GapFree_tail _ _ (GapFree_tail _ _ hg)⟩
      · exact Or.inr ⟨rfl, fun hm => hn (List.mem_cons_of_mem _ hm), GapFree_tail _ _ hg⟩
    · have hgi : GapFree (i :: rest) := by
        rcases h with ⟨_, hg⟩ | ⟨_, _, hg⟩
        · exact GapFree_tail _ _ hg
        · exact hg
      have hrec : iobifyLoop tokTags rest i = iobifyLoopKeep tokTags rest i :=
        ih i i (Or.inl ⟨rfl, hgi⟩)
      have hcond : (oldI = i) ↔ (oldK = i) := by
        rcases h with ⟨he, _⟩ | ⟨he, hn, _⟩
        · rw [he]
        · constructor
          · intro h1; exact absurd (he ▸ h1).symm hi
          · intro h1; exact absurd (h1 ▸ List.mem_cons_self _ _) hn
      simp only [if_neg hi, hrec]
      by_cases ho : oldI = i
      · rw [if_pos ho, if_pos (hcond.mp ho)]
      · rw [if_neg ho, if_neg (fun hk => ho (hcond.mpr hk))]

theorem levMatches_self (c : Rune) : levMatches c c = true := by
  unfold levMatches
  split_ifs <;> simp

theorem matchesPointwise_self (s : List Rune) : MatchesPointwise s s :=
  ⟨rfl, fun _ _ => levMatches_self _⟩

theorem matchesPointwise_of_whitespace (raw tok : List Rune) (hlen : raw.length = tok.length)
    (h : ∀ (k : Nat) (t r : Rune), tok[k]? = some t → raw[k]? = some r →
      r = t ∨ ((t = 32 ∨ t = 10) ∧ isSpace r = true)) : MatchesPointwise tok raw := by
  refine ⟨hlen.symm, fun k hk => ?_⟩
  have hkr : k < raw.length := by omega
  have ht : tok[k]? = some tok[k] := List.getElem?_eq_getElem hk
  have hr : raw[k]? = some raw[k] := List.getElem?_eq_getElem hkr
  have e1 : tok.getD k 0 = tok[k] := by rw [List.getD_eq_getElem?_getD, ht]; rfl
  have e2 : raw.getD k 0 = raw[k] := by rw [List.getD_eq_getElem?_getD, hr]; rfl
  rw [e1, e2]
  rcases h k _ _ ht hr with heq | ⟨hd, hs⟩
  · rw [heq]; exact levMatches_self _
  · unfold levMatches
    rcases hd with hd | hd <;> simp [hd, hs]

theorem iobifyLoop_unaligned (tokTags : List characterTag) (n : Nat) (oldI : Int) :
    iobifyLoop tokTags (List.replicate n (-1)) oldI = some (List.replicate n tagO) := by
  induction n generalizing oldI with
  | zero => rfl
  | succ n ih => simp [List.replicate_succ, iobifyLoop, ih]

/-- C1: for every raw and tok, an edit script that is length-consistent (it
consumes len(tok) runes and produces len(raw) runes) makes align return an
alignment of exactly len(raw) elements and iobify a label sequence of exactly
len(raw) elements; the script of the edit-distance routine is length-consistent,
so align(raw, tok) and iobify(raw, tok) have exactly len(raw) elements. -/
theorem length_invariant (raw tok : List Rune) :
    (∀ script : List EditOperation,
      consumed script = tok.length → produced script = raw.length →
        ∃ a r, alignScript raw script = some a ∧ iobifyAlignment tok a = some r ∧
          a.length = raw.length ∧ r.length = raw.length) ∧
    (consumed (EditScriptForStrings tok raw levOptions) = tok.length ∧
      produced (EditScriptForStrings tok raw levOptions) = raw.length) ∧
    (∃ a r, align raw tok = some a ∧ iobify raw tok = some r ∧
      a.length = raw.length ∧ r.length = raw.length) := by
  refine ⟨fun script hsrc htgt => ?_, EditScriptForStrings_counts tok raw levOptions, ?_⟩
  · obtain ⟨a, h1, h2, _, h4⟩ := alignScript_spec raw script htgt
    rw [hsrc] at h4
    obtain ⟨r, e1, e2⟩ := iobifyLoop_spec (tagTokenizedText tok) a (-1) (by
      rw [tagTokenizedText, tagLoop_length]; exact h4)
    exact ⟨a, r, h1, e1, h2, by omega⟩
  · obtain ⟨a, r, h1, h2, h3, h4, _, _⟩ := iobify_total raw tok
    exact ⟨a, r, h1, h2, h3, h4⟩

/-- Witness for C1: raw = "ab", tok = "a b" with the script Match, Del, Match. -/
theorem length_invariant_witness :
    ∃ a r, alignScript [97, 98]
        [EditOperation.Match, EditOperation.Del, EditOperation.Match] = some a ∧
      iobifyAlignment [97, 32, 98] a = some r ∧
      a.length = ([97, 98] : List Rune).length ∧ r.length = ([97, 98] : List Rune).length :=
  (length_invariant [97, 98] [97, 32, 98]).1
    [EditOperation.Match, EditOperation.Del, EditOperation.Match] (by decide) (by decide)

/-- C2: when tok = raw = s the alignment is the identity map and iobify(s, s)
equals tagTokenizedText(s); for s = "Hi world" the labels are S I O T I I I I. -/
theorem identity_alignment (s : List Rune) :
    align s s = some (identityAlignment s.length) ∧
    (∀ j : Nat, j < s.length → (identityAlignment s.length)[j]? = some (j : Int)) ∧
    iobify s s = some (tagTokenizedText s) ∧
    iobify (runes "Hi world") (runes "Hi world")
      = some [tagS, tagI, tagO, tagT, tagI, tagI, tagI, tagI] := by
  refine ⟨align_of_matchesPointwise s s (matchesPointwise_self s), fun j hj => ?_,
    iobify_of_matchesPointwise s s (matchesPointwise_self s), by decide⟩
  simp [identityAlignment, List.getElem?_range' _ _ hj]

/-- Witness for C2: position 1 of the identity alignment of "Hi". -/
theorem identity_alignment_witness :
    (identityAlignment ([72, 105] : List Rune).length)[1]? = some ((1 : Nat) : Int) :=
  (identity_alignment [72, 105]).2.1 1 (by decide)

/-- C3 (as stated, refuted): for tok = "Hi , there" and raw = "Hi, there" the
edit script contains no insertion, the raw comma (position 2) is aligned to
tokenized index 3, the comma's own position, while the preceding raw i is
aligned to index 1, and the comma is labelled T, which differs from I. -/
theorem scenario3_comma_not_inside :
    (EditOperation.Ins ∉ EditScriptForStrings (runes "Hi , there") (runes "Hi, there") levOptions) ∧
    (align (runes "Hi, there") (runes "Hi , there")).map (fun a => (a[1]?, a[2]?))
      = some (some 1, some 3) ∧
    (runes "Hi , there")[3]? = (runes "Hi, there")[2]? ∧
    (iobify (runes "Hi, there") (runes "Hi , there")).map (fun r => r[2]?) = some (some tagT) ∧
    tagT ≠ tagI := by
  decide

/-- C3 (amended): for tok = "Hi , there" and raw = "Hi, there" the edit script
deletes the tokenized space before the comma and matches everything else, the
alignment is 0 1 3 4 5 6 7 8 9, and the labels are S I T O T I I I I: the raw
comma is aligned to its own tokenized position and labelled TokenStart. -/
theorem scenario3_comma_token_start :
    EditScriptForStrings (runes "Hi , there") (runes "Hi, there") levOptions
      = [EditOperation.Match, EditOperation.Match, EditOperation.Del, EditOperation.Match,
         EditOperation.Match, EditOperation.Match, EditOperation.Match, EditOperation.Match,
         EditOperation.Match, EditOperation.Match] ∧
    align (runes "Hi, there") (runes "Hi , there") = some [0, 1, 3, 4, 5, 6, 7, 8, 9] ∧
    iobify (runes "Hi, there") (runes "Hi , there")
      = some [tagS, tagI, tagT, tagO, tagT, tagI, tagI, tagI, tagI] := by
  decide

/-- C4: for tok = "Hi there" and raw = "Hithere" the edit script deletes the
tokenized space (cost 1), the alignment is 0 1 3 4 5 6 7, and the labels are
S I T I I I I, with no Outside label. -/
theorem scenario2_space_deleted :
    EditScriptForStrings (runes "Hi there") (runes "Hithere") levOptions
      = [EditOperation.Match, EditOperation.Match, EditOperation.Del, EditOperation.Match,
         EditOperation.Match, EditOperation.Match, EditOperation.Match, EditOperation.Match] ∧
    cell (MatrixForStrings (runes "Hi there") (runes "Hithere") levOptions) 8 7 = 1 ∧
    (runes "Hi there")[2]? = some 32 ∧
    align (runes "Hithere") (runes "Hi there") = some [0, 1, 3, 4, 5, 6, 7] ∧
    iobify (runes "Hithere") (runes "Hi there")
      = some [tagS, tagI, tagT, tagI, tagI, tagI, tagI] ∧
    tagO ∉ [tagS, tagI, tagT, tagI, tagI, tagI, tagI] := by
  decide

/-- C5: when raw and tok have the same length and at each position the raw
rune equals the tokenized rune, or the tokenized rune is a space or newline and
the raw rune is whitespace, the edit cost is 0, the script is all matches, the
alignment is the identity map and iobify(raw, tok) equals tagTokenizedText(tok). -/
theorem whitespace_tolerance (raw tok : List Rune) (hlen : raw.length = tok.length)
    (h : ∀ (k : Nat) (t r : Rune), tok[k]? = some t → raw[k]? = some r →
      r = t ∨ ((t = 32 ∨ t = 10) ∧ isSpace r = true)) :
    cell (MatrixForStrings tok raw levOptions) tok.length raw.length = 0 ∧
    EditScriptForStrings tok raw levOptions = List.replicate tok.length EditOperation.Match ∧
    align raw tok = some (identityAlignment raw.length) ∧
    (∀ j : Nat, j < raw.length → (identityAlignment raw.length)[j]? = some (j : Int)) ∧
    iobify raw tok = some (tagTokenizedText tok) := by
  have hm := matchesPointwise_of_whitespace raw tok hlen h
  refine ⟨?_, EditScriptForStrings_diag tok raw hm, align_of_matchesPointwise raw tok hm,
    fun j hj => ?_, iobify_of_matchesPointwise raw tok hm⟩
  · rw [hlen]
    exact cell_diag_zero tok raw hm tok.length (Nat.le_refl _)
  · simp [identityAlignment, List.getElem?_range' _ _ hj]

/-- Witness for C5: tok = "a b" and raw = "a", tab, "b". -/
theorem whitespace_tolerance_witness :
    cell (MatrixForStrings [97, 32, 98] [97, 9, 98] levOptions)
      ([97, 32, 98] : List Rune).length ([97, 9, 98] : List Rune).length = 0 ∧
    EditScriptForStrings [97, 32, 98] [97, 9, 98] levOptions
      = List.replicate ([97, 32, 98] : List Rune).length EditOperation.Match ∧
    align [97, 9, 98] [97, 32, 98] = some (identityAlignment ([97, 9, 98] : List Rune).length) ∧
    (∀ j : Nat, j < ([97, 9, 98] : List Rune).length →
      (identityAlignment ([97, 9, 98] : List Rune).length)[j]? = some (j : Int)) ∧
    iobify [97, 9, 98] [97, 32, 98] = some (tagTokenizedText [97, 32, 98]) :=
  whitespace_tolerance [97, 9, 98] [97, 32, 98] (by decide) (by
    intro k t r ht hr
    match k, ht, hr with
    | 0, ht, hr =>
      simp at ht hr
      subst ht; subst hr
      exact Or.inl rfl
    | 1, ht, hr =>
      simp at ht hr
      subst ht; subst hr
      exact Or.inr ⟨Or.inl rfl, by decide⟩
    | 2, ht, hr =>
      simp at ht hr
      subst ht; subst hr
      exact Or.inl rfl
    | k + 3, ht, _ => simp at ht)

/-- C7: with A = align(raw, tok) and L = tagTokenizedText(tok), both align and
iobify return, and for every raw position j the label iobify(raw, tok)[j] is O
when A[j] is -1; is I when A[j] is not -1, j > 0 and A[j] = A[j-1]; and is
L[A[j]] (with A[j] a valid index of tok) otherwise. -/
theorem iobify_label_rule (raw tok : List Rune) :
    ∃ A R, align raw tok = some A ∧ iobify raw tok = some R ∧ A.length = raw.length ∧
      ∀ (j : Nat) (a : Int), A[j]? = some a →
        (a = -1 → R[j]? = some tagO) ∧
        (a ≠ -1 → 0 < j → A[j - 1]? = some a → R[j]? = some tagI) ∧
        (a ≠ -1 → ¬ (0 < j ∧ A[j - 1]? = some a) →
          0 ≤ a ∧ a.toNat < tok.length ∧ R[j]? = (tagTokenizedText tok)[a.toNat]?) := by
  obtain ⟨A, R, hA, hR, hlen, _, _, hval⟩ := iobify_total raw tok
  refine ⟨A, R, hA, hR, hlen, fun j a hj => ?_⟩
  have hloop : iobifyLoop (tagTokenizedText tok) A (-1) = some R := by
    simpa [iobify, hA, iobifyAlignment] using hR
  have hrule := iobifyLoop_getElem? (tagTokenizedText tok) A (-1) R j a hloop hj
  refine ⟨fun ha => ?_, fun ha hj0 hprev => ?_, fun ha hnot => ?_⟩
  · rw [hrule]; simp [projectedLabel, ha]
  · rw [hrule, if_neg (by omega), hprev]; simp [projectedLabel, ha]
  · have hbound : 0 ≤ a ∧ a.toNat < tok.length := by
      rcases hval a (List.getElem?_mem hj) with h | ⟨h0, hlt⟩
      · exact absurd h ha
      · exact ⟨h0, by omega⟩
    refine ⟨hbound.1, hbound.2, ?_⟩
    rw [hrule]
    by_cases hj0 : j = 0
    · have hne : ¬ ((-1 : Int) = a) := fun e => ha e.symm
      simp [projectedLabel, ha, hj0, hne]
    · have hne : ¬ (A[j - 1]? = some a) := fun e => hnot ⟨by omega, e⟩
      simp [projectedLabel, ha, hj0, hne]

/-- Witness for C7: raw = "ab", tok = "a b", raw position 1 (aligned to index 2). -/
theorem iobify_label_rule_witness :
    ∃ R, iobify [97, 98] [97, 32, 98] = some R ∧
      R[1]? = (tagTokenizedText [97, 32, 98])[(2 : Int).toNat]? := by
  obtain ⟨A, R, hA, hR, _, h⟩ := iobify_label_rule [97, 98] [97, 32, 98]
  have hA2 : align [97, 98] [97, 32, 98] = some [0, 2] := by decide
  rw [hA2] at hA
  cases hA
  exact ⟨R, hR, ((h 1 2 rfl).2.2 (by decide) (by decide)).2.2⟩

/-- C8: updating the tracker at an unaligned position or leaving it unchanged
makes no difference: iobify(raw, tok), which assigns oldI = i on every
iteration, returns the same label sequence as the variant whose tracker is left
unchanged at unaligned positions (and both return). -/
theorem iobify_tracker_irrelevant (raw tok : List Rune) :
    iobify raw tok = iobifyKeep raw tok ∧ ∃ R, iobify raw tok = some R := by
  obtain ⟨A, R, hA, hR, _, _, hgap, _⟩ := iobify_total raw tok
  refine ⟨?_, R, hR⟩
  simp only [iobify, iobifyKeep, hA, iobifyAlignment]
  exact iobifyLoop_eq_keep (tagTokenizedText tok) A (-1) (-1)
    (Or.inl ⟨rfl, GapFree_cons_unaligned A hgap⟩)

/-- C9: align and iobify return on empty inputs: for every tok, align([], tok)
and iobify([], tok) are empty; for every raw, align(raw, []) is len(raw)
sentinels -1 and iobify(raw, []) is len(raw) Outside labels. -/
theorem empty_inputs (s : List Rune) :
    align [] s = some [] ∧ iobify [] s = some [] ∧
    align s [] = some (List.replicate s.length (-1)) ∧
    iobify s [] = some (List.replicate s.length tagO) := by
  obtain ⟨a, r, hA, hR, hla, hlr, _, _⟩ := iobify_total [] s
  have ha : a = [] := List.length_eq_zero.mp (by simpa using hla)
  have hr : r = [] := List.length_eq_zero.mp (by simpa using hlr)
  subst ha; subst hr
  obtain ⟨b, hB, hlb, _, hval⟩ := align_spec s []
  have hb : b = List.replicate s.length (-1) := by
    rw [List.eq_replicate_iff]
    refine ⟨hlb, fun x hx => ?_⟩
    rcases hval x hx with h | ⟨h0, hlt⟩
    · exact h
    · simp at hlt; omega
  subst hb
  refine ⟨hA, hR, hB, ?_⟩
  simp only [iobify, hB, iobifyAlignment]
  exact iobifyLoop_unaligned _ _ _

/-- C10: for every raw and tok, align and iobify return normally (no slice
access is out of range) and every element of align(raw, tok) is -1 or an index
i with 0 <= i < len(tok). -/
theorem align_indices_in_range (raw tok : List Rune) :
    ∃ A R, align raw tok = some A ∧ iobify raw tok = some R ∧
      ∀ x ∈ A, x = -1 ∨ (0 ≤ x ∧ x < (tok.length : Int)) := by
  obtain ⟨A, R, hA, hR, _, _, _, hval⟩ := iobify_total raw tok
  exact ⟨A, R, hA, hR, hval⟩

/-- Witness for C10: raw = "ab", tok = "a b"; the entry 2 of the alignment is
a valid index of tok. -/
theorem align_indices_in_range_witness :
    ∃ A, align [97, 98] [97, 32, 98] = some A ∧ (2 : Int) ∈ A ∧
      ((2 : Int) = -1 ∨ (0 ≤ (2 : Int) ∧ (2 : Int) < (([97, 32, 98] : List Rune).length : Int))) := by
  obtain ⟨A, _, hA, _, h⟩ := align_indices_in_range [97, 98] [97, 32, 98]
  have hA2 : align [97, 98] [97, 32, 98] = some [0, 2] := by decide
  have hmem : (2 : Int) ∈ A := by
    rw [hA2] at hA
    cases hA
    decide
  exact ⟨A, hA, hmem, h 2 hmem⟩

theorem UnalignedLeft_snoc (raw : List Rune) (al : List Int) (v : Int)
    (h : UnalignedLeft raw al)
    (hv : v = -1 → 0 < al.length → nonSpaceAt raw al.length = true →
      al[al.length - 1]? = some (-1)) :
    UnalignedLeft raw (al ++ [v]) := by
  intro k hk hget hns
  rw [getElem?_snoc] at hget
  rw [getElem?_snoc]
  rcases hget with ⟨hlt, hget⟩ | ⟨he, hval⟩
  · exact Or.inl ⟨by omega, h k hk hget hns⟩
  · subst he
    exact Or.inl ⟨by omega, hv hval.symm hk hns⟩

theorem alignLoop_unalignedLeft (raw : List Rune) (script : List EditOperation) (al : List Int)
    (i j : Nat) (a : List Int) (hlen : al.length = j) (h : UnalignedLeft raw al)
    (hrun : alignLoop raw script al i j = some a) : UnalignedLeft raw a := by
  induction script generalizing al i j with
  | nil =>
    simp only [alignLoop, Option.some.injEq] at hrun
    exact hrun ▸ h
  | cons o script ih =>
    cases o with
    | Match =>
      simp only [alignLoop] at hrun
      exact ih (al ++ [(i : Int)]) (i + 1) (j + 1) (by simp [hlen])
        (UnalignedLeft_snoc raw al _ h (fun hv => by omega)) hrun
    | Sub =>
      simp only [alignLoop] at hrun
      exact ih (al ++ [(i : Int)]) (i + 1) (j + 1) (by simp [hlen])
        (UnalignedLeft_snoc raw al _ h (fun hv => by omega)) hrun
    | Del =>
      simp only [alignLoop] at hrun
      exact ih al (i + 1) j hlen h hrun
    | Ins =>
      simp only [alignLoop] at hrun
      cases hraw : raw[j]? with
      | none => simp [hraw] at hrun
      | some c =>
        simp only [hraw] at hrun
        by_cases hc : (!isSpace c && decide (0 < j)) = true
        · simp only [hc, if_true] at hrun
          cases hprev : al[j - 1]? with
          | none => simp [hprev] at hrun
          | some v =>
            simp only [hprev] at hrun
            refine ih (al ++ [v]) i (j + 1) (by simp [hlen])
              (UnalignedLeft_snoc raw al _ h (fun hv _ _ => ?_)) hrun
            rw [hlen, hprev, hv]
        · simp only [hc, Bool.false_eq_true, if_false] at hrun
          refine ih (al ++ [-1]) i (j + 1) (by simp [hlen])
            (UnalignedLeft_snoc raw al _ h (fun _ hpos hns => ?_)) hrun
          exfalso
          rw [hlen] at hpos hns
          simp only [nonSpaceAt, hraw] at hns
          simp only [Bool.and_eq_true, decide_eq_true_eq, not_and] at hc
          exact hc hns hpos

theorem repairLoop_getElem? (raw : List Rune) (n : Nat) (al a : List Int)
    (hrun : repairLoop raw n al = some a) :
    a.length = al.length ∧
    ∀ (k : Nat) (x : Int), al[k]? = some x →
      a[k]? = if k < n ∧ x = -1 ∧ nonSpaceAt raw k = true then a[k + 1]? else some x := by
  induction n generalizing al with
  | zero =>
    simp only [repairLoop, Option.some.injEq] at hrun
    subst hrun
    exact ⟨rfl, fun k x hx => by simp [hx]⟩
  | succ j ih =>
    simp only [repairLoop] at hrun
    cases hget : al[j]? with
    | none => simp [hget] at hrun
    | some v =>
      simp only [hget] at hrun
      have hjl : j < al.length := (List.getElem?_eq_some.mp hget).1
      -- the slice after the iteration at offset j
      have key : ∀ al2 : List Int, repairLoop raw j al2 = some a → al2.length = al.length →
          (∀ k : Nat, k ≠ j → al2[k]? = al[k]?) →
          (∀ y, al2[j]? = some y →
            some y = if v = -1 ∧ nonSpaceAt raw j = true then al[j + 1]? else some v) →
          a.length = al.length ∧
          ∀ (k : Nat) (x : Int), al[k]? = some x →
            a[k]? = if k < j + 1 ∧ x = -1 ∧ nonSpaceAt raw k = true then a[k + 1]?
              else some x := by
        intro al2 hrun2 hlen2 hother hat
        obtain ⟨e1, e2⟩ := ih al2 hrun2
        refine ⟨by omega, fun k x hx => ?_⟩
        by_cases hkj : k = j
        · subst hkj
          have hxv : x = v := by rw [hget] at hx; exact (Option.some.inj hx).symm
          subst hxv
          have hk2 : k < al2.length := by omega
          have h2 := e2 k al2[k] (List.getElem?_eq_getElem hk2)
          rw [if_neg (by omega)] at h2
          have h3 := hat al2[k] (List.getElem?_eq_getElem hk2)
          rw [h2, h3]
          by_cases hcond : x = -1 ∧ nonSpaceAt raw k = true
          · rw [if_pos hcond, if_pos ⟨by omega, hcond⟩]
            cases hnext : al[k + 1]? with
            | none =>
              rw [List.getElem?_eq_none_iff] at hnext
              symm
              rw [List.getElem?_eq_none_iff]
              omega
            | some w =>
              have h4 := e2 (k + 1) w (by rw [hother (k + 1) (by omega)]; exact hnext)
              rw [if_neg (by omega)] at h4
              exact h4.symm
          · rw [if_neg hcond, if_neg (fun hc => hcond hc.2)]
        · have h2 := e2 k x (by rw [hother k hkj]; exact hx)
          rw [h2]
          by_cases hlt : k < j
          · simp [hlt, Nat.lt_succ_of_lt hlt]
          · rw [if_neg (fun hc => hlt hc.1), if_neg (fun hc => by omega)]
      by_cases hv : v = -1
      · simp only [hv, if_true] at hrun
        cases hraw : raw[j]? with
        | none => simp [hraw] at hrun
        | some c =>
          simp only [hraw] at hrun
          by_cases hc : (!isSpace c) = true
          · simp only [hc, if_true] at hrun
            cases hnext : al[j + 1]? with
            | none => simp [hnext] at hrun
            | some b =>
              simp only [hnext] at hrun
              refine key (al.set j b) hrun (by simp) (fun k hk => ?_) (fun y hy => ?_)
              · exact List.getElem?_set_ne (fun e => hk e.symm)
              · have hns : nonSpaceAt raw j = true := by simp only [nonSpaceAt, hraw]; exact hc
                rw [if_pos ⟨hv, hns⟩, hnext]
                rw [getElem?_set_some al j b hjl] at hy
                rcases hy with ⟨_, hy⟩ | ⟨hne, _⟩
                · rw [hy]
                · exact absurd rfl hne
          · simp only [hc, Bool.false_eq_true, if_false] at hrun
            refine key al hrun rfl (fun _ _ => rfl) (fun y hy => ?_)
            have hns : ¬ (nonSpaceAt raw j = true) := by simp only [nonSpaceAt, hraw]; exact hc
            rw [if_neg (fun h => hns h.2), ← hy, hget]
      · simp only [hv, if_false] at hrun
        refine key al hrun rfl (fun _ _ => rfl) (fun y hy => ?_)
        rw [if_neg (fun h => hv h.1), ← hy, hget]

theorem UnalignedLeft_nil (raw : List Rune) : UnalignedLeft raw [] := by
  intro k _ h
  simp at h

theorem align_passes (raw tok : List Rune) :
    ∃ F A, alignLoop raw (EditScriptForStrings tok raw levOptions) [] 0 0 = some F ∧
      repairLoop raw (raw.length - 1) F = some A ∧ align raw tok = some A ∧
      F.length = raw.length ∧ A.length = raw.length ∧ UnalignedLeft raw F := by
  have hc := EditScriptForStrings_counts tok raw levOptions
  obtain ⟨F, h1, h2, h3, _⟩ := alignLoop_spec raw (EditScriptForStrings tok raw levOptions) [] 0 0
    rfl (by omega) GapFree_nil (fun x hx => by simp at hx)
  obtain ⟨A, e1, e2, _, _⟩ := repairLoop_spec raw (raw.length - 1) F (by omega) (by omega) h3
  refine ⟨F, A, h1, e1, ?_, by omega, by omega,
    alignLoop_unalignedLeft raw _ [] 0 0 F rfl (UnalignedLeft_nil raw) h1⟩
  simp only [align, alignScript, h1]
  exact e1

/-- C11: in A = align(raw, tok), an unaligned non-whitespace raw position has no
aligned neighbour: if A[j] is -1 and raw[j] is not whitespace, then A[j+1] is
-1 whenever j+1 < len(raw) and A[j-1] is -1 whenever j > 0. -/
theorem unaligned_nonspace_neighbours (raw tok : List Rune) :
    ∃ A, align raw tok = some A ∧ A.length = raw.length ∧
      ∀ (j : Nat) (c : Rune), A[j]? = some (-1) → raw[j]? = some c → isSpace c = false →
        (j + 1 < raw.length → A[j + 1]? = some (-1)) ∧ (0 < j → A[j - 1]? = some (-1)) := by
  obtain ⟨F, A, _, hrep, hA, hFlen, hAlen, hleft⟩ := align_passes raw tok
  refine ⟨A, hA, hAlen, fun j c hAj hraw hc => ?_⟩
  obtain ⟨_, hget⟩ := repairLoop_getElem? raw (raw.length - 1) F A hrep
  have hj : j < raw.length := (List.getElem?_eq_some.mp hraw).1
  have hns : nonSpaceAt raw j = true := by simp [nonSpaceAt, hraw, hc]
  have hFj : F[j]? = some F[j] := List.getElem?_eq_getElem (by omega)
  have hrule := hget j F[j] hFj
  have hx : F[j] = -1 := by
    by_contra hne
    rw [if_neg (fun h => hne h.2.1), hAj] at hrule
    exact hne (Option.some.inj hrule).symm
  rw [hx] at hFj
  refine ⟨fun hnext => ?_, fun hpos => ?_⟩
  · rw [hx, if_pos ⟨by omega, rfl, hns⟩, hAj] at hrule
    exact hrule.symm
  · have hprev := hleft j hpos hFj hns
    have hrule2 := hget (j - 1) (-1) hprev
    by_cases hcond : j - 1 < raw.length - 1 ∧ (-1 : Int) = -1 ∧ nonSpaceAt raw (j - 1) = true
    · rw [if_pos hcond, show j - 1 + 1 = j by omega, hAj] at hrule2
      exact hrule2
    · rw [if_neg hcond] at hrule2
      exact hrule2

/-- Witness for C11: tok = "a", raw = "a b": the trailing b (position 2) is
unaligned and not whitespace, and its left neighbour is unaligned. -/
theorem unaligned_nonspace_neighbours_witness :
    ∃ A, align [97, 32, 98] [97] = some A ∧ A[2 - 1]? = some (-1) := by
  obtain ⟨A, hA, _, h⟩ := unaligned_nonspace_neighbours [97, 32, 98] [97]
  have hA2 : align [97, 32, 98] [97] = some [0, -1, -1] := by decide
  have heq : A = [0, -1, -1] := by
    rw [hA2] at hA
    exact (Option.some.inj hA).symm
  exact ⟨A, hA, (h 2 98 (by rw [heq]; rfl) (by rfl) (by decide)).2 (by decide)⟩

/-- C15: the repair pass never changes the alignment of the final raw
character: for raw of length n >= 1, align(raw, tok)[n-1] is the value the
forward pass gave position n-1, and when that value is -1 iobify labels the
position O; for tok = "a", raw = "a b" the alignment is 0 -1 -1 and the labels
are S O O. -/
theorem final_position_not_repaired (raw tok : List Rune) (hn : 0 < raw.length) :
    (∃ F A R v, alignLoop raw (EditScriptForStrings tok raw levOptions) [] 0 0 = some F ∧
      align raw tok = some A ∧ iobify raw tok = some R ∧
      F[raw.length - 1]? = some v ∧ A[raw.length - 1]? = some v ∧
      (v = -1 → R[raw.length - 1]? = some tagO)) ∧
    alignLoop (runes "a b") (EditScriptForStrings (runes "a") (runes "a b") levOptions) [] 0 0
      = some [0, -1, -1] ∧
    (runes "a b")[2]? = some 98 ∧ isSpace 98 = false ∧
    align (runes "a b") (runes "a") = some [0, -1, -1] ∧
    iobify (runes "a b") (runes "a") = some [tagS, tagO, tagO] := by
  refine ⟨?_, by decide, by decide, by decide, by decide, by decide⟩
  obtain ⟨F, A, hF, hrep, hA, hFlen, _, _⟩ := align_passes raw tok
  obtain ⟨A2, R, hA2, hR, _, _, _, _⟩ := iobify_total raw tok
  have hAA : A2 = A := by
    rw [hA] at hA2
    exact (Option.some.inj hA2).symm
  subst hAA
  obtain ⟨_, hget⟩ := repairLoop_getElem? raw (raw.length - 1) F A2 hrep
  have hFv : F[raw.length - 1]? = some F[raw.length - 1] := List.getElem?_eq_getElem (by omega)
  have hrule := hget (raw.length - 1) _ hFv
  rw [if_neg (fun h => Nat.lt_irrefl _ h.1)] at hrule
  refine ⟨F, A2, R, F[raw.length - 1], hF, hA, hR, hFv, hrule, fun hv => ?_⟩
  have hloop : iobifyLoop (tagTokenizedText tok) A2 (-1) = some R := by
    simpa [iobify, hA, iobifyAlignment] using hR
  rw [iobifyLoop_getElem? (tagTokenizedText tok) A2 (-1) R _ _ hloop hrule]
  simp [projectedLabel, hv]

/-- Witness for C15: tok = "a", raw = "a b". -/
theorem final_position_not_repaired_witness :
    ∃ F A R v, alignLoop [97, 32, 98] (EditScriptForStrings [97] [97, 32, 98] levOptions) [] 0 0
        = some F ∧
      align [97, 32, 98] [97] = some A ∧ iobify [97, 32, 98] [97] = some R ∧
      F[([97, 32, 98] : List Rune).length - 1]? = some v ∧
      A[([97, 32, 98] : List Rune).length - 1]? = some v ∧
      (v = -1 → R[([97, 32, 98] : List Rune).length - 1]? = some tagO) :=
  (final_position_not_repaired [97, 32, 98] [97] (by decide)).1

/-- C16: the aligned entries of A = align(raw, tok) are order-preserving and
gap-free: for j < k with A[j] and A[k] both aligned, A[j] <= A[k], and if
A[j] = A[k] every position between j and k holds that same value. -/
theorem alignment_monotone_gap_free (raw tok : List Rune) :
    ∃ A, align raw tok = some A ∧ A.length = raw.length ∧
      ∀ (j k : Nat) (x y : Int), j < k → A[j]? = some x → A[k]? = some y →
        x ≠ -1 → y ≠ -1 →
        x ≤ y ∧ (x = y → ∀ r : Nat, j ≤ r → r ≤ k → A[r]? = some x) := by
  obtain ⟨A, hA, hlen, hgap, _⟩ := align_spec raw tok
  exact ⟨A, hA, hlen, hgap⟩

/-- Witness for C16: tok = "ab", raw = "a,b" with alignment 0 0 1, at
positions 0 and 2. -/
theorem alignment_monotone_gap_free_witness :
    ∃ A, align [97, 44, 98] [97, 98] = some A ∧
      ((0 : Int) ≤ 1 ∧ ((0 : Int) = 1 → ∀ r : Nat, 0 ≤ r → r ≤ 2 → A[r]? = some 0)) := by
  obtain ⟨A, hA, _, h⟩ := alignment_monotone_gap_free [97, 44, 98] [97, 98]
  have hA2 : align [97, 44, 98] [97, 98] = some [0, 0, 1] := by decide
  have heq : A = [0, 0, 1] := by
    rw [hA2] at hA
    exact (Option.some.inj hA).symm
  exact ⟨A, hA, h 0 2 0 1 (by decide) (by rw [heq]; rfl) (by rw [heq]; rfl)
    (by decide) (by decide)⟩

theorem tagOf_isTag (st : Bool × Bool) (c : Rune) : isTag (tagOf st c) := by
  unfold tagOf isTag
  split_ifs <;> simp

theorem tagLoop_isTag (tok : List Rune) (s b : Bool) : ∀ t ∈ tagLoop tok s b, isTag t := by
  induction tok generalizing s b with
  | nil => intro t ht; simp [tagLoop] at ht
  | cons c rest ih =>
    intro t ht
    rw [tagLoop_cons] at ht
    rcases List.mem_cons.mp ht with h | h
    · rw [h]; exact tagOf_isTag _ _
    · exact ih _ _ t h

theorem iobifyLoop_mem (tokTags : List characterTag) (al : List Int) (oldI : Int)
    (R : List characterTag) (hR : iobifyLoop tokTags al oldI = some R) :
    ∀ t ∈ R, t = tagO ∨ t = tagI ∨ t ∈ tokTags := by
  induction al generalizing oldI R with
  | nil =>
    simp only [iobifyLoop, Option.some.injEq] at hR
    subst hR
    intro t ht
    simp at ht
  | cons i rest ih =>
    simp only [iobifyLoop] at hR
    intro t ht
    split_ifs at hR with h1 h2 h3
    · obtain ⟨r, hr1, hr⟩ := Option.map_eq_some'.mp hR
      subst hr
      rcases List.mem_cons.mp ht with h | h
      · exact Or.inl h
      · exact ih i r hr1 t h
    · obtain ⟨r, hr1, hr⟩ := Option.map_eq_some'.mp hR
      subst hr
      rcases List.mem_cons.mp ht with h | h
      · exact Or.inr (Or.inl h)
      · exact ih i r hr1 t h
    · cases hget : tokTags[i.toNat]? with
      | none => simp [hget] at hR
      | some tag =>
        simp only [hget] at hR
        obtain ⟨r, hr1, hr⟩ := Option.map_eq_some'.mp hR
        subst hr
        rcases List.mem_cons.mp ht with h | h
        · exact Or.inr (Or.inr (h ▸ List.getElem?_mem hget))
        · exact ih i r hr1 t h

theorem getLast?_getD_cons (i : Int) (rest : List Int) (old : Int) :
    ((i :: rest).getLast?).getD old = (rest.getLast?).getD i := by
  induction rest generalizing i old with
  | nil => simp
  | cons j rest ih => rw [List.getLast?_cons_cons, ih j old, ih j i]

theorem iobifyRun_eq_loop (tokTags : List characterTag) (al : List Int)
    (acc : List characterTag) (old : Int) :
    iobifyRun tokTags al (acc, old)
      = (iobifyLoop tokTags al old).map (fun r => (acc ++ r, (al.getLast?).getD old)) := by
  induction al generalizing acc old with
  | nil => simp [iobifyRun, iobifyLoop]
  | cons i rest ih =>
    simp only [iobifyRun, iobifyStep, iobifyLoop, getLast?_getD_cons]
    split_ifs with h1 h2 h3
    · simp [ih, Option.map_map, Function.comp_def]
    · simp [ih, Option.map_map, Function.comp_def]
    · simp
    · cases hget : tokTags[i.toNat]? with
      | none => simp
      | some tag => simp [ih, Option.map_map, Function.comp_def]

/-- C12: the match predicate of levOptions, applied to a tokenized-side rune s
and a raw-side rune t, is true exactly when s = t, or s is a space or newline
and t is a whitespace rune; it is not symmetric (a tokenized tab does not match
a raw space, a tokenized space matches a raw tab); the costs are Insert 1,
Delete 1, Substitute 2. -/
theorem levOptions_spec :
    (∀ s t : Rune, levOptions.Matches s t = true ↔
      (s = t ∨ ((s = 32 ∨ s = 10) ∧ isSpace t = true))) ∧
    levOptions.Matches 9 32 = false ∧ levOptions.Matches 32 9 = true ∧
    levOptions.InsCost = 1 ∧ levOptions.DelCost = 1 ∧ levOptions.SubCost = 2 := by
  refine ⟨fun s t => ?_, by decide, by decide, rfl, rfl, rfl⟩
  show levMatches s t = true ↔ _
  unfold levMatches
  by_cases hs : (s = 32 ∨ s = 10) ∧ isSpace t = true
  · have : ((s == 32 || s == 10) && isSpace t) = true := by
      rcases hs with ⟨h | h, ht⟩ <;> simp [h, ht]
    simp [this, hs]
  · have : ¬ (((s == 32 || s == 10) && isSpace t) = true) := by
      intro h
      apply hs
      simpa using h
    simp [this, hs]

/-- C13: tagToString maps O, I, T, S to the strings O, I, T, S, injectively on
the four tags, and every label of iobify(raw, tok) is one of the four tags, so
its rendering is never the empty-string fallback. -/
theorem tagToString_spec (raw tok : List Rune) :
    tagToString tagO = "O" ∧ tagToString tagI = "I" ∧ tagToString tagT = "T" ∧
    tagToString tagS = "S" ∧
    (∀ a b : characterTag, isTag a → isTag b → tagToString a = tagToString b → a = b) ∧
    ∃ R, iobify raw tok = some R ∧ ∀ t ∈ R, isTag t ∧ tagToString t ≠ "" := by
  refine ⟨by decide, by decide, by decide, by decide, ?_, ?_⟩
  · intro a b ha hb
    rcases ha with h | h | h | h <;> rcases hb with h2 | h2 | h2 | h2 <;>
      subst h <;> subst h2 <;> decide
  · obtain ⟨A, R, hA, hR, _, _, _, _⟩ := iobify_total raw tok
    refine ⟨R, hR, fun t ht => ?_⟩
    have hloop : iobifyLoop (tagTokenizedText tok) A (-1) = some R := by
      simpa [iobify, hA, iobifyAlignment] using hR
    have htag : isTag t := by
      rcases iobifyLoop_mem _ _ _ _ hloop t ht with h | h | h
      · exact Or.inl h
      · exact Or.inr (Or.inl h)
      · exact tagLoop_isTag tok false false t h
    refine ⟨htag, ?_⟩
    rcases htag with h | h | h | h <;> subst h <;> decide

/-- Witness for C13: the label S of raw = tok = "a". -/
theorem tagToString_spec_witness :
    ∃ R, iobify [97] [97] = some R ∧ tagS ∈ R ∧ isTag tagS ∧ tagToString tagS ≠ "" := by
  obtain ⟨R, hR, h⟩ := (tagToString_spec [97] [97]).2.2.2.2.2
  have hR2 : iobify [97] [97] = some [tagS] := by decide
  have hmem : tagS ∈ R := by
    rw [hR2] at hR
    cases hR
    decide
  exact ⟨R, hR, hmem, h tagS hmem⟩

/-- C14 (as stated, refuted): for tok = "ab", raw = "a b" the alignment is
0 -1 1; after the iteration at the unaligned raw position 1 the tracker is -1,
not the index 0 of the last aligned raw position. -/
theorem tracker_reset_at_unaligned :
    align (runes "a b") (runes "ab") = some [0, -1, 1] ∧
    (iobifyRun (tagTokenizedText (runes "ab")) [0] ([], -1)).map Prod.snd = some 0 ∧
    (iobifyRun (tagTokenizedText (runes "ab")) [0, -1] ([], -1)).map Prod.snd = some (-1) ∧
    (-1 : Int) ≠ 0 := by
  decide

/-- C14 (amended): the tracker is assigned the current alignment value on every
iteration: whenever the loop of iobify returns on an alignment ending in i, the
run of iterations ends with the same labels and with the tracker equal to i; in
particular after an unaligned position the tracker is -1. -/
theorem tracker_follows_alignment (tokTags : List characterTag) (pre : List Int) (i old : Int)
    (R : List characterTag) (h : iobifyLoop tokTags (pre ++ [i]) old = some R) :
    iobifyRun tokTags (pre ++ [i]) ([], old) = some (R, i) ∧
    (i = -1 → (iobifyRun tokTags (pre ++ [i]) ([], old)).map Prod.snd = some (-1)) := by
  have hrun : iobifyRun tokTags (pre ++ [i]) ([], old) = some (R, i) := by
    rw [iobifyRun_eq_loop, h]
    simp [List.getLast?_concat]
  exact ⟨hrun, fun hi => by rw [hrun, hi]; rfl⟩

/-- Witness for C14 (amended): the alignment 0 -1 of raw "a " against tok "ab". -/
theorem tracker_follows_alignment_witness :
    iobifyRun [tagS, tagI] ([0] ++ [-1]) ([], -1) = some ([tagS, tagO], -1) ∧
    ((-1 : Int) = -1 →
      (iobifyRun [tagS, tagI] ([0] ++ [-1]) ([], -1)).map Prod.snd = some (-1)) :=
  tracker_follows_alignment [tagS, tagI] [0] (-1) (-1) [tagS, tagO] (by decide)

theorem count_cons_le_cons (tag t : characterTag) (r l : List characterTag)
    (h : r.count tag ≤ l.count tag) : (t :: r).count tag ≤ (t :: l).count tag := by
  rw [List.count_cons, List.count_cons]
  omega

theorem iobifyLoopKeep_count (tag : characterTag) (hO : tag ≠ tagO) (hI : tag ≠ tagI)
    (tokTags : List characterTag) (al : List Int) (oldK : Int) (R : List characterTag)
    (hk : -1 ≤ oldK) (hgap : GapFree al) (hlo : ∀ x ∈ al, x ≠ -1 → oldK ≤ x)
    (hrun : iobifyLoopKeep tokTags al oldK = some R) :
    R.count tag ≤ (tokTags.drop (oldK + 1).toNat).count tag := by
  induction al generalizing oldK R with
  | nil =>
    simp only [iobifyLoopKeep, Option.some.injEq] at hrun
    subst hrun
    simp
  | cons i rest ih =>
    have hgr : GapFree rest := GapFree_tail _ _ hgap
    simp only [iobifyLoopKeep] at hrun
    by_cases hi : i = -1
    · simp only [hi, if_true] at hrun
      obtain ⟨r, hr1, hr⟩ := Option.map_eq_some'.mp hrun
      subst hr
      rw [List.count_cons_of_ne hO]
      exact ih oldK r hk hgr (fun x hx => hlo x (List.mem_cons_of_mem _ hx)) hr1
    · have hle : oldK ≤ i := hlo i (List.mem_cons_self _ _) hi
      have hnext : ∀ x ∈ rest, x ≠ -1 → i ≤ x := by
        intro x hx hx1
        obtain ⟨q, hq⟩ := List.mem_iff_getElem?.mp hx
        exact (hgap 0 (q + 1) i x (by omega) (by simp) (by simpa using hq) hi hx1).1
      simp only [if_neg hi] at hrun
      by_cases ho : oldK = i
      · simp only [ho, if_true] at hrun
        obtain ⟨r, hr1, hr⟩ := Option.map_eq_some'.mp hrun
        subst hr
        rw [List.count_cons_of_ne hI, ho]
        exact ih i r (by omega) hgr hnext hr1
      · have hneg : ¬ (i < 0) := by omega
        simp only [if_neg ho, if_neg hneg] at hrun
        cases hget : tokTags[i.toNat]? with
        | none => simp [hget] at hrun
        | some t =>
          simp only [hget] at hrun
          obtain ⟨r, hr1, hr⟩ := Option.map_eq_some'.mp hrun
          subst hr
          have hidx : i.toNat < tokTags.length := (List.getElem?_eq_some.mp hget).1
          have ht : tokTags[i.toNat] = t := by
            rw [List.getElem?_eq_getElem hidx] at hget
            exact Option.some.inj hget
          have h1 := ih i r (by omega) hgr hnext hr1
          have h2 : (i + 1).toNat = i.toNat + 1 := by omega
          rw [h2] at h1
          have h3 := count_cons_le_cons tag t _ _ h1
          rw [← ht, ← List.drop_eq_getElem_cons hidx] at h3
          rw [← ht]
          exact Nat.le_trans h3
            ((List.drop_sublist_drop_left tokTags (by omega)).count_le tag)

/-- C17: projection never invents boundaries: iobify(raw, tok) has at most as
many S labels, and at most as many T labels, as tagTokenizedText(tok), and in
A = align(raw, tok) an aligned index starts at most one stretch of raw
positions (a later position with the same index continues its stretch). -/
theorem projection_no_new_boundaries (raw tok : List Rune) :
    ∃ A R, align raw tok = some A ∧ iobify raw tok = some R ∧
      R.count tagS ≤ (tagTokenizedText tok).count tagS ∧
      R.count tagT ≤ (tagTokenizedText tok).count tagT ∧
      ∀ (j k : Nat) (x : Int), j < k → A[j]? = some x → A[k]? = some x → x ≠ -1 →
        A[k - 1]? = some x := by
  obtain ⟨A, R, hA, hR, _, _, hgap, hval⟩ := iobify_total raw tok
  have hloop : iobifyLoopKeep (tagTokenizedText tok) A (-1) = some R := by
    rw [← iobifyLoop_eq_keep (tagTokenizedText tok) A (-1) (-1)
      (Or.inl ⟨rfl, GapFree_cons_unaligned A hgap⟩)]
    simpa [iobify, hA, iobifyAlignment] using hR
  have hlo : ∀ x ∈ A, x ≠ -1 → (-1 : Int) ≤ x := by
    intro x hx hx1
    rcases hval x hx with h | ⟨h, _⟩
    · exact absurd h hx1
    · omega
  have hS := iobifyLoopKeep_count tagS (by decide) (by decide) _ A (-1) R (le_refl _) hgap hlo hloop
  have hT := iobifyLoopKeep_count tagT (by decide) (by decide) _ A (-1) R (le_refl _) hgap hlo hloop
  refine ⟨A, R, hA, hR, by simpa using hS, by simpa using hT, fun j k x hjk hj hk hx => ?_⟩
  exact (hgap j k x x hjk hj hk hx hx).2 rfl (k - 1) (by omega) (by omega)

/-- Witness for C17: tok = "ab", raw = "a,b" with alignment 0 0 1: position 1
continues the stretch of index 0 started at position 0. -/
theorem projection_no_new_boundaries_witness :
    ∃ A, align [97, 44, 98] [97, 98] = some A ∧ A[1 - 1]? = some 0 := by
  obtain ⟨A, _, hA, _, _, _, h⟩ := projection_no_new_boundaries [97, 44, 98] [97, 98]
  have hA2 : align [97, 44, 98] [97, 98] = some [0, 0, 1] := by decide
  have heq : A = [0, 0, 1] := by
    rw [hA2] at hA
    exact (Option.some.inj hA).symm
  exact ⟨A, hA, h 0 1 0 (by decide) (by rw [heq]; rfl) (by rw [heq]; rfl) (by decide)⟩

end Iobify
